import Mathlib

/-!
Verification development for the core of the `jason` JSON viewer
(`App.tsx`): the tree indexer, the path formatter, the incremental search
engine and its bounded cache, the visibility resolver, the share-link
base64/UTF-8 codec, and the document-load state transition.

Modelling conventions:
* JavaScript strings are modelled as Lean `String` (sequences of Unicode
  scalar values); `toLowerCase` is modelled by `String.toLower` (ASCII
  letters, which is the range exercised here).
* JSON numbers are modelled as integers (`Int`); floating-point
  formatting is outside the model.
* JavaScript objects/`Map`s are modelled as association lists in
  insertion order, which is the enumeration order of `Object.entries`,
  `Object.values` and `Map.keys` for the non-index keys used here.
-/

namespace Jason

/-- Model of a parsed JSON value.  Objects are ordered association lists,
mirroring JavaScript object key insertion order. -/
inductive JsonValue where
  | null : JsonValue
  | bool (b : Bool) : JsonValue
  | num (n : Int) : JsonValue
  | str (s : String) : JsonValue
  | arr (items : List JsonValue) : JsonValue
  | obj (fields : List (String × JsonValue)) : JsonValue

/-- Decimal digit character, as produced by JavaScript number-to-string. -/
def digitChar : Nat → Char
  | 0 => '0' | 1 => '1' | 2 => '2' | 3 => '3' | 4 => '4'
  | 5 => '5' | 6 => '6' | 7 => '7' | 8 => '8' | _ => '9'

/-- Fuel-driven digit expansion (structural recursion so that concrete
values reduce inside the kernel). -/
def natDigitsAux : Nat → Nat → List Char
  | 0, _ => []
  | fuel + 1, n =>
    if n < 10 then [digitChar n]
    else natDigitsAux fuel (n / 10) ++ [digitChar (n % 10)]

/-- Decimal digits of a natural number, most significant first
(the digit sequence `String(n)` produces in JavaScript). -/
def natDigits (n : Nat) : List Char := natDigitsAux (n + 1) n

theorem natDigitsAux_irrel : ∀ f1 f2 n, n < f1 → n < f2 →
    natDigitsAux f1 n = natDigitsAux f2 n := by
  intro f1
  induction f1 with
  | zero => omega
  | succ f1 ih =>
    intro f2 n h1 h2
    cases f2 with
    | zero => omega
    | succ f2 =>
      simp only [natDigitsAux]
      split
      · rfl
      · rw [ih f2 (n / 10) (by omega) (by omega)]

theorem natDigits_unfold (n : Nat) :
    natDigits n = if n < 10 then [digitChar n]
      else natDigits (n / 10) ++ [digitChar (n % 10)] := by
  show natDigitsAux (n + 1) n = _
  rw [natDigitsAux]
  split
  · rfl
  · next h10 =>
    rw [natDigitsAux_irrel n (n / 10 + 1) (n / 10)
      (Nat.div_lt_self (by omega) (by omega)) (by omega)]
    rfl

/-- Value of a decimal digit string (fold of `10*acc + digit`). -/
def digitsVal (l : List Char) : Nat :=
  l.foldl (fun a c => 10 * a + (c.toNat - 48)) 0

theorem digitChar_toNat {k : Nat} (h : k < 10) : (digitChar k).toNat = 48 + k := by
  interval_cases k <;> decide

theorem digitsVal_append_digit (l : List Char) (c : Char) :
    digitsVal (l ++ [c]) = 10 * digitsVal l + (c.toNat - 48) := by
  simp [digitsVal, List.foldl_append]

theorem digitsVal_natDigits (n : Nat) : digitsVal (natDigits n) = n := by
  induction n using Nat.strongRecOn with
  | ind n ih =>
    rw [natDigits_unfold]
    split
    · next h =>
      simp [digitsVal, digitChar_toNat h]
    · next h =>
      rw [digitsVal_append_digit, ih (n / 10) (Nat.div_lt_self (by omega) (by omega)),
        digitChar_toNat (Nat.mod_lt n (by omega))]
      omega

theorem natDigits_injective : Function.Injective natDigits := by
  intro m n h
  have := digitsVal_natDigits m
  rw [h, digitsVal_natDigits] at this
  omega

theorem natDigits_ne_nil (n : Nat) : natDigits n ≠ [] := by
  rw [natDigits_unfold]
  split <;> simp

theorem natDigits_mem_digit {n : Nat} {c : Char} (h : c ∈ natDigits n) :
    48 ≤ c.toNat ∧ c.toNat ≤ 57 := by
  induction n using Nat.strongRecOn with
  | ind n ih =>
    rw [natDigits_unfold] at h
    split at h
    · next hlt =>
      simp at h
      subst h
      constructor <;> (rw [digitChar_toNat hlt]; omega)
    · next hlt =>
      rcases List.mem_append.1 h with h | h
      · exact ih (n / 10) (Nat.div_lt_self (by omega) (by omega)) h
      · simp at h
        subst h
        have h10 := Nat.mod_lt n (show 0 < 10 by omega)
        constructor <;> (rw [digitChar_toNat h10]; omega)

theorem natDigits_head_ne_zero {n : Nat} (hn : 0 < n) :
    (natDigits n).head? ≠ some '0' := by
  induction n using Nat.strongRecOn with
  | ind n ih =>
    rw [natDigits_unfold]
    split
    · next h =>
      have h9 : n ≤ 9 := by omega
      interval_cases n <;> simp_all <;> decide
    · next h =>
      rw [List.head?_append_of_ne_nil _ (natDigits_ne_nil _)]
      exact ih (n / 10) (Nat.div_lt_self (by omega) (by omega)) (by omega)

/-- Decimal string of a natural number (JavaScript `String(n)` for `n ≥ 0`). -/
def natStr (n : Nat) : String := String.mk (natDigits n)

theorem natStr_injective : Function.Injective natStr := by
  intro m n h
  exact natDigits_injective (congrArg String.toList h)

/-- Digits of an integer, with leading `-` for negatives
(JavaScript `String(i)` for integral `i`). -/
def intDigits : Int → List Char
  | Int.ofNat n => natDigits n
  | Int.negSucc n => '-' :: natDigits (n + 1)

/-- Decimal string of an integer. -/
def intStr (i : Int) : String := String.mk (intDigits i)

/-- Synthetic node identifier: `node-${sequence}` in the source. -/
def nodeId (n : Nat) : String := "node-" ++ natStr n

theorem nodeId_injective : Function.Injective nodeId := by
  intro m n h
  apply natStr_injective
  have h' : ("node-" ++ natStr m).data = ("node-" ++ natStr n).data := congrArg String.data h
  simp only [String.data_append] at h'
  exact String.ext (List.append_cancel_left h')

/-! ### Path formatter (`pathTextFromSegments`) -/

/-- One step of a path: an object key or an array index. -/
inductive PathSegment where
  | key (s : String)
  | idx (n : Nat)

/-- First character class of `IDENTIFIER_RE = /^[A-Za-z_$][A-Za-z0-9_$]*$/`. -/
def isIdentStart (c : Char) : Bool :=
  ('A' ≤ c && c ≤ 'Z') || ('a' ≤ c && c ≤ 'z') || c == '_' || c == '$'

/-- Subsequent character class of `IDENTIFIER_RE`. -/
def isIdentChar (c : Char) : Bool :=
  isIdentStart c || ('0' ≤ c && c ≤ '9')

/-- Model of `IDENTIFIER_RE.test(segment)`. -/
def isIdentifier (s : String) : Bool :=
  match s.toList with
  | [] => false
  | c :: cs => isIdentStart c && cs.all isIdentChar

/-- Single-character `replaceAll` where the replacement is a character list. -/
def replAll (target : Char) (repl : List Char) (l : List Char) : List Char :=
  l.flatMap (fun c => if c = target then repl else [c])

/-- The escape applied to non-identifier keys in the source:
`segment.replaceAll("\\", "\\\\").replaceAll("\"", "\\\"")`. -/
def escapeKey (s : String) : String :=
  String.mk (replAll '"' ['\\', '"'] (replAll '\\' ['\\', '\\'] s.toList))

/-- Model of `pathTextFromSegments` from the source: an early `$` for the
empty sequence, otherwise a left fold appending one piece per segment. -/
def pathTextFromSegments (segments : List PathSegment) : String :=
  if segments.length = 0 then "$"
  else
    segments.foldl
      (fun path segment =>
        match segment with
        | PathSegment.idx n => path ++ "[" ++ natStr n ++ "]"
        | PathSegment.key s =>
          if isIdentifier s then path ++ "." ++ s
          else path ++ "[\"" ++ escapeKey s ++ "\"]")
      "$"

/-- Modelled from the spec (§4.1), for comparison with the source: escape
every backslash and double quote of the key by a backslash, one pass. -/
def escSpec (l : List Char) : List Char :=
  l.flatMap (fun c =>
    if c = '\\' then ['\\', '\\'] else if c = '"' then ['\\', '"'] else [c])

/-- Modelled from the spec (§4.1): the string a single segment appends. -/
def segTextSpec (seg : PathSegment) : String :=
  match seg with
  | PathSegment.idx n => "[" ++ natStr n ++ "]"
  | PathSegment.key s =>
    if isIdentifier s then "." ++ s
    else "[\"" ++ String.mk (escSpec s.toList) ++ "\"]"

/-- Concatenation of a list of strings. -/
def strConcat : List String → String
  | [] => ""
  | s :: rest => s ++ strConcat rest

theorem escapeKey_eq_escSpec (s : String) : escapeKey s = String.mk (escSpec s.toList) := by
  unfold escapeKey
  congr 1
  induction s.toList with
  | nil => rfl
  | cons c l ih =>
    by_cases hb : c = '\\'
    · subst hb
      simp [replAll, escSpec] at ih ⊢
      exact ih
    · by_cases hq : c = '"'
      · subst hq
        simp [replAll, escSpec] at ih ⊢
        exact ih
      · simp [replAll, escSpec, hb, hq] at ih ⊢
        exact ih

theorem pathText_foldl_acc (segments : List PathSegment) (acc : String) :
    segments.foldl
      (fun path segment =>
        match segment with
        | PathSegment.idx n => path ++ "[" ++ natStr n ++ "]"
        | PathSegment.key s =>
          if isIdentifier s then path ++ "." ++ s
          else path ++ "[\"" ++ escapeKey s ++ "\"]")
      acc = acc ++ strConcat (segments.map segTextSpec) := by
  induction segments generalizing acc with
  | nil => simp [strConcat]
  | cons seg rest ih =>
    rw [List.foldl_cons, ih, List.map_cons]
    show _ = acc ++ strConcat (segTextSpec seg :: _)
    rw [strConcat, ← String.append_assoc]
    congr 1
    match seg with
    | PathSegment.idx n =>
      simp [segTextSpec, String.append_assoc]
    | PathSegment.key s =>
      by_cases hid : isIdentifier s <;>
        simp [segTextSpec, hid, escapeKey_eq_escSpec, String.append_assoc]

/-- C5: the path formatter is total on segment sequences; the empty sequence
yields `$`, and processing the segments left to right each numeric segment
appends `[N]`, each identifier-pattern string segment appends `.key`, and
every other string segment appends a bracketed double-quoted form whose
backslashes and double quotes are backslash-escaped. -/
theorem C5_path_formatter (segments : List PathSegment) :
    pathTextFromSegments segments = "$" ++ strConcat (segments.map segTextSpec) := by
  unfold pathTextFromSegments
  split
  · next h =>
    rw [List.length_eq_zero.1 h]
    rfl
  · exact pathText_foldl_acc segments "$"

/-! ### JSON serialization (model of `JSON.stringify`) -/

/-- Lower-case hexadecimal digit. -/
def hexDigit : Nat → Char
  | 0 => '0' | 1 => '1' | 2 => '2' | 3 => '3' | 4 => '4'
  | 5 => '5' | 6 => '6' | 7 => '7' | 8 => '8' | 9 => '9'
  | 10 => 'a' | 11 => 'b' | 12 => 'c' | 13 => 'd' | 14 => 'e' | _ => 'f'

/-- JSON string-literal escape of a single character, as `JSON.stringify`
produces it: `\"`, `\\`, the short control escapes, `\u00XX` for the
remaining control characters, and every other character unchanged. -/
def escJsonChar (c : Char) : List Char :=
  if c = '"' then ['\\', '"']
  else if c = '\\' then ['\\', '\\']
  else if c.toNat = 8 then ['\\', 'b']
  else if c.toNat = 12 then ['\\', 'f']
  else if c.toNat = 10 then ['\\', 'n']
  else if c.toNat = 13 then ['\\', 'r']
  else if c.toNat = 9 then ['\\', 't']
  else if c.toNat < 32 then
    ['\\', 'u', '0', '0', hexDigit (c.toNat / 16), hexDigit (c.toNat % 16)]
  else [c]

/-- Body of a JSON string literal. -/
def escJson (l : List Char) : List Char := l.flatMap escJsonChar

mutual

/-- Model of compact `JSON.stringify(v)` (no indentation argument), as a
character list. -/
def stringifyL : JsonValue → List Char
  | JsonValue.null => ['n', 'u', 'l', 'l']
  | JsonValue.bool true => ['t', 'r', 'u', 'e']
  | JsonValue.bool false => ['f', 'a', 'l', 's', 'e']
  | JsonValue.num i => intDigits i
  | JsonValue.str s => '"' :: (escJson s.toList ++ ['"'])
  | JsonValue.arr [] => ['[', ']']
  | JsonValue.arr (x :: xs) => '[' :: (stringifyL x ++ stringifyMoreItems xs ++ [']'])
  | JsonValue.obj [] => ['{', '}']
  | JsonValue.obj (f :: fs) => '{' :: (stringifyField f ++ stringifyMoreFields fs ++ ['}'])

/-- One `"key":value` member of a compact object serialization. -/
def stringifyField : String × JsonValue → List Char
  | (k, v) => '"' :: (escJson k.toList ++ ['"', ':'] ++ stringifyL v)

/-- Comma-separated items after the first one. -/
def stringifyMoreItems : List JsonValue → List Char
  | [] => []
  | x :: xs => ',' :: (stringifyL x ++ stringifyMoreItems xs)

/-- Comma-separated members after the first one. -/
def stringifyMoreFields : List (String × JsonValue) → List Char
  | [] => []
  | f :: fs => ',' :: (stringifyField f ++ stringifyMoreFields fs)

end

/-- Compact `JSON.stringify(v)`. -/
def jsonStringifyCompact (v : JsonValue) : String := String.mk (stringifyL v)

/-- Indentation of `2 * lvl` spaces. -/
def indentL (lvl : Nat) : List Char := List.replicate (2 * lvl) ' '

mutual

/-- Model of `JSON.stringify(v, null, 2)` (two-space indentation). -/
def prettyL : Nat → JsonValue → List Char
  | _, JsonValue.arr [] => ['[', ']']
  | lvl, JsonValue.arr (x :: xs) =>
    '[' :: '\n' :: (indentL (lvl + 1) ++ prettyL (lvl + 1) x ++ prettyMoreItems (lvl + 1) xs
      ++ '\n' :: (indentL lvl ++ [']']))
  | _, JsonValue.obj [] => ['{', '}']
  | lvl, JsonValue.obj (f :: fs) =>
    '{' :: '\n' :: (indentL (lvl + 1) ++ prettyField (lvl + 1) f ++ prettyMoreFields (lvl + 1) fs
      ++ '\n' :: (indentL lvl ++ ['}']))
  | _, v => stringifyL v

/-- One `"key": value` member of an indented object serialization. -/
def prettyField : Nat → String × JsonValue → List Char
  | lvl, (k, v) => '"' :: (escJson k.toList ++ ['"', ':', ' '] ++ prettyL lvl v)

/-- Newline-and-indent separated items after the first one. -/
def prettyMoreItems : Nat → List JsonValue → List Char
  | _, [] => []
  | lvl, x :: xs => ',' :: '\n' :: (indentL lvl ++ prettyL lvl x ++ prettyMoreItems lvl xs)

/-- Newline-and-indent separated members after the first one. -/
def prettyMoreFields : Nat → List (String × JsonValue) → List Char
  | _, [] => []
  | lvl, f :: fs => ',' :: '\n' :: (indentL lvl ++ prettyField lvl f ++ prettyMoreFields lvl fs)

end

/-- Two-space indented `JSON.stringify(v, null, 2)`. -/
def jsonStringifyIndent2 (v : JsonValue) : String := String.mk (prettyL 0 v)

/-! ### JavaScript string coercion (`String(v)` and template literals) -/

mutual

/-- Model of JavaScript `String(v)` on parsed JSON values. -/
def jsString : JsonValue → String
  | JsonValue.null => "null"
  | JsonValue.bool true => "true"
  | JsonValue.bool false => "false"
  | JsonValue.num i => intStr i
  | JsonValue.str s => s
  | JsonValue.arr items => String.intercalate "," (jsStringElems items)
  | JsonValue.obj _ => "[object Object]"

/-- Array elements under JavaScript array-to-string coercion
(`null` becomes the empty string inside an array). -/
def jsStringElems : List JsonValue → List String
  | [] => []
  | JsonValue.null :: rest => "" :: jsStringElems rest
  | v :: rest => jsString v :: jsStringElems rest

end

/-! ### Tree indexer (`determineKind`, `buildTree`) -/

/-- The six node kinds of the data model. -/
inductive NodeKind where
  | object | array | string | number | boolean | null
deriving DecidableEq

/-- The display label of a kind. -/
def kindLabel : NodeKind → String
  | NodeKind.object => "object"
  | NodeKind.array => "array"
  | NodeKind.string => "string"
  | NodeKind.number => "number"
  | NodeKind.boolean => "boolean"
  | NodeKind.null => "null"

/-- Model of `determineKind`: null, then array, then object, then string,
then number, else boolean. -/
def determineKind : JsonValue → NodeKind
  | JsonValue.null => NodeKind.null
  | JsonValue.arr _ => NodeKind.array
  | JsonValue.obj _ => NodeKind.object
  | JsonValue.str _ => NodeKind.string
  | JsonValue.num _ => NodeKind.number
  | JsonValue.bool _ => NodeKind.boolean

/-- Model of the `summary` field: `{N keys}` for objects, `[N items]` for
arrays, `JSON.stringify(current)` for scalars. -/
def summaryOf (v : JsonValue) : String :=
  match v with
  | JsonValue.obj fields => "\x7b" ++ natStr fields.length ++ " keys\x7d"
  | JsonValue.arr items => "[" ++ natStr items.length ++ " items]"
  | _ => jsonStringifyCompact v

/-- Model of JavaScript `toLowerCase`, per character (ASCII letters, the
range exercised by this program). -/
def jsToLower (s : String) : String := String.mk (s.toList.map Char.toLower)

/-- Model of the `searchText` field: the four components joined by a space
and lower-cased.  The third component is `"object"`/`"array"` for
containers and JavaScript `String(current)` for scalars. -/
def searchTextOf (displayKey : Option String) (pathText : String) (kind : NodeKind)
    (v : JsonValue) : String :=
  jsToLower (String.intercalate " "
    [displayKey.getD "", pathText,
      match kind with
      | NodeKind.object => "object"
      | NodeKind.array => "array"
      | _ => jsString v,
      summaryOf v])

/-- One indexed node (the `TreeNode` interface). -/
structure TreeNode where
  id : String
  displayKey : Option String
  value : JsonValue
  kind : NodeKind
  depth : Nat
  pathSegments : List PathSegment
  pathText : String
  parentId : Option String
  childrenIds : List String
  hasChildren : Bool
  summary : String
  searchText : String

/-- The indexed tree (the `TreeData` interface); `nodes` is an association
list in record-insertion (pre-)order. -/
structure TreeData where
  nodes : List (String × TreeNode)
  rootIds : List String

mutual

/-- Model of the recursive `build` closure of `buildTree`.  Returns the id
of the node built for `current`, the next sequence value, and the nodes
inserted (in insertion order: the node itself first, then its descendants
in pre-order). -/
def build (current : JsonValue) (pathSegments : List PathSegment)
    (displayKey : Option String) (parentId : Option String) (depth : Nat) (seq : Nat) :
    String × Nat × List (String × TreeNode) :=
  let id := nodeId seq
  let kind := determineKind current
  let rec' :=
    match current with
    | JsonValue.obj fields => buildFields fields pathSegments id (depth + 1) (seq + 1)
    | JsonValue.arr items => buildItems items 0 pathSegments id (depth + 1) (seq + 1)
    | _ => ([], seq + 1, [])
  let node : TreeNode :=
    { id := id
      displayKey := displayKey
      value := current
      kind := kind
      depth := depth
      pathSegments := pathSegments
      pathText := pathTextFromSegments pathSegments
      parentId := parentId
      childrenIds := rec'.1
      hasChildren := kind == NodeKind.object || kind == NodeKind.array
      summary := summaryOf current
      searchText := searchTextOf displayKey (pathTextFromSegments pathSegments) kind current }
  (id, rec'.2.1, (id, node) :: rec'.2.2)

/-- Children of an object node, in key-enumeration order. -/
def buildFields (fields : List (String × JsonValue)) (pathSegments : List PathSegment)
    (parentId : String) (depth : Nat) (seq : Nat) :
    List String × Nat × List (String × TreeNode) :=
  match fields with
  | [] => ([], seq, [])
  | (key, child) :: rest =>
    let r1 := build child (pathSegments ++ [PathSegment.key key]) (some key) (some parentId)
      depth seq
    let r2 := buildFields rest pathSegments parentId depth r1.2.1
    (r1.1 :: r2.1, r2.2.1, r1.2.2 ++ r2.2.2)

/-- Children of an array node, in index order. -/
def buildItems (items : List JsonValue) (index : Nat) (pathSegments : List PathSegment)
    (parentId : String) (depth : Nat) (seq : Nat) :
    List String × Nat × List (String × TreeNode) :=
  match items with
  | [] => ([], seq, [])
  | child :: rest =>
    let r1 := build child (pathSegments ++ [PathSegment.idx index]) (some (natStr index))
      (some parentId) depth seq
    let r2 := buildItems rest (index + 1) pathSegments parentId depth r1.2.1
    (r1.1 :: r2.1, r2.2.1, r1.2.2 ++ r2.2.2)

end

/-- Model of `buildTree`. -/
def buildTree (value : JsonValue) : TreeData :=
  let r := build value [] none none 0 0
  { nodes := r.2.2, rootIds := [r.1] }

/-- Model of `makeDefaultCollapsed`: every container node at depth at least
`DEFAULT_COLLAPSE_DEPTH = 2` starts collapsed. -/
def makeDefaultCollapsed (nodes : List (String × TreeNode)) : List String :=
  (nodes.filter (fun e => e.2.hasChildren && decide (2 ≤ e.2.depth))).map (fun e => e.2.id)

/-- The two copy flavors of `getValueForCopy`. -/
inductive CopyKind where
  | value | subtree
deriving DecidableEq

/-- Model of `getValueForCopy`: pretty subtree serialization, raw string
content for string nodes, compact serialization otherwise. -/
def getValueForCopy (node : TreeNode) (kind : CopyKind) : String :=
  match kind with
  | CopyKind.subtree => jsonStringifyIndent2 node.value
  | CopyKind.value =>
    if node.kind = NodeKind.string then jsString node.value
    else jsonStringifyCompact node.value

/-! ### Substring containment (model of `String.prototype.includes`) -/

/-- Whether `q` is an initial run of `s`. -/
def hasPre : List Char → List Char → Bool
  | [], _ => true
  | _ :: _, [] => false
  | a :: q, b :: s => a == b && hasPre q s

/-- Whether `q` occurs contiguously inside `s`. -/
def subList (q s : List Char) : Bool :=
  hasPre q s ||
    match s with
    | [] => false
    | _ :: s' => subList q s'

/-- Model of `s.includes(q)` on JavaScript strings. -/
def strIncludes (s q : String) : Bool := subList q.toList s.toList

theorem hasPre_iff (q s : List Char) : hasPre q s = true ↔ ∃ t, s = q ++ t := by
  induction q generalizing s with
  | nil => simp [hasPre]
  | cons a q ih =>
    cases s with
    | nil => simp [hasPre]
    | cons b s =>
      simp only [hasPre, Bool.and_eq_true, beq_iff_eq, ih, List.cons_append, List.cons.injEq]
      constructor
      · rintro ⟨rfl, t, rfl⟩
        exact ⟨t, rfl, rfl⟩
      · rintro ⟨t, rfl, rfl⟩
        exact ⟨rfl, t, rfl⟩

theorem subList_iff (q s : List Char) : subList q s = true ↔ ∃ u w, s = u ++ (q ++ w) := by
  induction s with
  | nil =>
    simp only [subList, Bool.or_eq_true, hasPre_iff]
    constructor
    · rintro (⟨t, ht⟩ | h)
      · exact ⟨[], t, ht⟩
      · simp at h
    · rintro ⟨u, w, h⟩
      exact Or.inl ⟨w, by cases u <;> simp_all⟩
  | cons b s ih =>
    simp only [subList, Bool.or_eq_true, hasPre_iff, ih]
    constructor
    · rintro (⟨t, ht⟩ | ⟨u, w, h⟩)
      · exact ⟨[], t, ht⟩
      · exact ⟨b :: u, w, by simp [h]⟩
    · rintro ⟨u, w, h⟩
      cases u with
      | nil => exact Or.inl ⟨w, by simpa using h⟩
      | cons x u =>
        simp only [List.cons_append, List.cons.injEq] at h
        exact Or.inr ⟨u, w, h.2⟩

theorem subList_append_left {a b s : List Char} (h : subList (a ++ b) s = true) :
    subList a s = true := by
  rcases (subList_iff _ _).1 h with ⟨u, w, rfl⟩
  exact (subList_iff _ _).2 ⟨u, b ++ w, by simp⟩

/-! ### Search engine (`searchMatchIds`) and its cache -/

/-- Result of the full scan: ids of the nodes whose `searchText` contains
the query, in entry (document) order.  This is both the `candidates =
nodeEntries` branch of the source and the naive computation of the spec. -/
def searchNaive (nodes : List (String × TreeNode)) (q : String) : List String :=
  (nodes.filter (fun e => strIncludes e.2.searchText q)).map (fun e => e.1)

/-- Model of `treeData.nodes[id]`. -/
def lookupNode (nodes : List (String × TreeNode)) (id : String) : Option TreeNode :=
  (nodes.find? (fun e => e.1 == id)).map (fun e => e.2)

/-- Model of `searchResultCacheRef.current.get(k)`. -/
def lookupCache (cache : List (String × List String)) (k : String) : Option (List String) :=
  (cache.find? (fun e => e.1 == k)).map (fun e => e.2)

/-- Model of the descending loop `for (let i = len - 1; i >= 1; i--)`
looking for a cached strict prefix of the query. -/
def findPfx (cache : List (String × List String)) (qc : List Char) : Nat → Option (List String)
  | 0 => none
  | i + 1 =>
    match lookupCache cache (String.mk (qc.take (i + 1))) with
    | some ids => some ids
    | none => findPfx cache qc i

/-- Model of one evaluation of the `searchMatchIds` memo body: the returned
match list and the cache after the evaluation. -/
def searchCompute (nodes : List (String × TreeNode)) (cache : List (String × List String))
    (q : String) : List String × List (String × List String) :=
  if q = "" then ([], cache)
  else
    match lookupCache cache q with
    | some ids => (ids, cache)
    | none =>
      let candidates :=
        match findPfx cache q.toList (q.toList.length - 1) with
        | none => nodes
        | some ids => ids.filterMap (fun id => (lookupNode nodes id).map (fun n => (id, n)))
      let result := (candidates.filter (fun e => strIncludes e.2.searchText q)).map (fun e => e.1)
      let cache1 := if 40 < cache.length then cache.drop 1 else cache
      (result, cache1 ++ [(q, result)])

theorem lookupCache_mem {cache : List (String × List String)} {k : String}
    {ids : List String} (h : lookupCache cache k = some ids) : (k, ids) ∈ cache := by
  unfold lookupCache at h
  cases hf : cache.find? (fun e => e.1 == k) with
  | none => rw [hf] at h; simp at h
  | some e =>
    rw [hf] at h
    simp only [Option.map_some', Option.some.injEq] at h
    have hmem := List.mem_of_find?_eq_some hf
    have hpred := List.find?_some hf
    simp only [beq_iff_eq] at hpred
    have : e = (k, ids) := by
      cases e
      simp_all
    rwa [this] at hmem

theorem findPfx_spec {cache : List (String × List String)} {qc : List Char}
    {ids : List String} (i : Nat) (h : findPfx cache qc i = some ids) :
    ∃ j, 1 ≤ j ∧ j ≤ i ∧ (String.mk (qc.take j), ids) ∈ cache := by
  induction i with
  | zero => simp [findPfx] at h
  | succ i ih =>
    rw [findPfx] at h
    cases hl : lookupCache cache (String.mk (qc.take (i + 1))) with
    | some ids' =>
      rw [hl] at h
      simp only [Option.some.injEq] at h
      subst h
      exact ⟨i + 1, by omega, le_refl _, lookupCache_mem hl⟩
    | none =>
      rw [hl] at h
      rcases ih h with ⟨j, h1, h2, h3⟩
      exact ⟨j, h1, by omega, h3⟩

theorem lookupNode_self {nodes : List (String × TreeNode)}
    (hnodup : (nodes.map (fun e => e.1)).Nodup) {e : String × TreeNode} (he : e ∈ nodes) :
    lookupNode nodes e.1 = some e.2 := by
  induction nodes with
  | nil => simp at he
  | cons x rest ih =>
    simp only [List.map_cons, List.nodup_cons] at hnodup
    rcases List.mem_cons.1 he with rfl | hmem
    · simp [lookupNode, List.find?]
    · have hne : ¬(x.1 == e.1) = true := by
        simp only [beq_iff_eq]
        intro hx
        exact hnodup.1 (hx ▸ List.mem_map_of_mem (fun e => e.1) hmem)
      simpa [lookupNode, List.find?, hne] using ih hnodup.2 hmem

theorem filterMap_lookup_reconstruct {nodes l : List (String × TreeNode)}
    (h : ∀ e ∈ l, lookupNode nodes e.1 = some e.2) :
    ((l.map (fun e => e.1)).filterMap
      (fun id => (lookupNode nodes id).map (fun n => (id, n)))) = l := by
  induction l with
  | nil => rfl
  | cons e rest ih =>
    simp only [List.map_cons, List.filterMap_cons, h e (List.mem_cons_self e rest),
      Option.map_some']
    rw [ih (fun e' he' => h e' (List.mem_cons_of_mem e he'))]

/-- C2: with a coherent cache (every entry is the naive result for its
query), one evaluation of `searchMatchIds` — including the scan restricted
to the ids cached for a strict prefix of the query — returns exactly the
naive full-scan result, and leaves the cache coherent. -/
theorem C2_search_cache_refinement (nodes : List (String × TreeNode))
    (cache : List (String × List String)) (q : String)
    (hq : q ≠ "")
    (hnodup : (nodes.map (fun e => e.1)).Nodup)
    (hcache : ∀ p ids, (p, ids) ∈ cache → ids = searchNaive nodes p) :
    (searchCompute nodes cache q).1 = searchNaive nodes q ∧
      ∀ p ids, (p, ids) ∈ (searchCompute nodes cache q).2 →
        ids = searchNaive nodes p := by
  unfold searchCompute
  rw [if_neg hq]
  cases hl : lookupCache cache q with
  | some ids =>
    simp only
    exact ⟨(hcache q ids (lookupCache_mem hl)).symm ▸ rfl, hcache⟩
  | none =>
    simp only
    have hcacheStep : ∀ result : List String,
        result = searchNaive nodes q →
        ∀ p ids, (p, ids) ∈ ((if 40 < cache.length then cache.drop 1 else cache)
          ++ [(q, result)]) → ids = searchNaive nodes p := by
      intro result hres p ids hmem
      rcases List.mem_append.1 hmem with hmem | hmem
      · refine hcache p ids ?_
        split at hmem
        · exact List.mem_of_mem_drop hmem
        · exact hmem
      · simp only [List.mem_singleton, Prod.mk.injEq] at hmem
        rw [hmem.1, hmem.2, hres]
    cases hf : findPfx cache q.toList (q.toList.length - 1) with
    | none => exact ⟨rfl, hcacheStep _ rfl⟩
    | some ids =>
      rcases findPfx_spec _ hf with ⟨j, _, _, hmem⟩
      have hids : ids = searchNaive nodes (String.mk (q.toList.take j)) :=
        hcache _ _ hmem
      have hrecon :
          ids.filterMap (fun id => (lookupNode nodes id).map (fun n => (id, n))) =
            nodes.filter
              (fun e => strIncludes e.2.searchText (String.mk (q.toList.take j))) := by
        rw [hids]
        exact filterMap_lookup_reconstruct
          (fun e he => lookupNode_self hnodup (List.mem_of_mem_filter he))
      have hmain :
          ((nodes.filter
              (fun e => strIncludes e.2.searchText (String.mk (q.toList.take j)))).filter
            (fun e => strIncludes e.2.searchText q)).map (fun e => e.1) =
            searchNaive nodes q := by
        unfold searchNaive
        rw [List.filter_filter]
        congr 1
        apply List.filter_congr
        intro e _
        cases hqe : strIncludes e.2.searchText q
        · simp [hqe]
        · have hQ : subList q.data e.2.searchText.data = true := hqe
          have hmono : subList (List.take j q.data) e.2.searchText.data = true := by
            apply subList_append_left (b := List.drop j q.data)
            rw [List.take_append_drop]
            exact hQ
          have hP : strIncludes e.2.searchText (String.mk (q.toList.take j)) = true := hmono
          simp only [hqe, Bool.true_and, Bool.and_true]
          exact hP
      have hres :
          ((ids.filterMap (fun id => (lookupNode nodes id).map (fun n => (id, n)))).filter
            (fun e => strIncludes e.2.searchText q)).map (fun e => e.1) =
            searchNaive nodes q := by
        rw [hrecon]
        exact hmain
      exact ⟨hres, hcacheStep _ hres⟩

/-- Folding a sequence of search evaluations over the cache. -/
def runSearches (nodes : List (String × TreeNode)) (cache : List (String × List String))
    (qs : List String) : List (String × List String) :=
  qs.foldl (fun c q => (searchCompute nodes c q).2) cache

theorem searchCompute_cache_bound {nodes : List (String × TreeNode)}
    {cache : List (String × List String)} {q : String} (h : cache.length ≤ 41) :
    (searchCompute nodes cache q).2.length ≤ 41 := by
  unfold searchCompute
  split
  · exact h
  · cases hl : lookupCache cache q with
    | some ids => exact h
    | none =>
      simp only [List.length_append, List.length_singleton]
      split
      · simp only [List.length_drop]
        omega
      · omega

/-- The spec's ancestor-chain example document `{"a":{"b":{"c":"hit"}}}`. -/
def sampleJson : JsonValue :=
  JsonValue.obj [("a", JsonValue.obj [("b", JsonValue.obj [("c", JsonValue.str "hit")])])]

/-- Witness for C2 at a concrete tree, query `"hit"`, and a cache holding
the naive result for the strict prefix `"hi"`. -/
theorem C2_search_cache_refinement_witness :
    (searchCompute (buildTree sampleJson).nodes
        [("hi", searchNaive (buildTree sampleJson).nodes "hi")] "hit").1 =
      searchNaive (buildTree sampleJson).nodes "hit" :=
  (C2_search_cache_refinement (buildTree sampleJson).nodes
    [("hi", searchNaive (buildTree sampleJson).nodes "hi")] "hit"
    (by decide) (by decide)
    (fun p ids h => by
      simp only [List.mem_singleton, Prod.mk.injEq] at h
      rw [h.2, h.1])).1

set_option maxRecDepth 4000 in
/-- C4 (counterexample): after 41 searches with distinct fresh queries the
cache holds 41 entries, so the size after a search operation is not always
at most 40. -/
theorem C4_counterexample :
    40 < (runSearches (buildTree JsonValue.null).nodes []
      ((List.range 41).map (fun i => "q" ++ natStr i))).length := by decide

/-- C4 (amended): the search cache never holds more than 41 entries — the
oldest entry is evicted before insertion whenever the cache already has
more than 40 entries, so every search operation preserves the bound 41. -/
theorem C4_cache_bound_amended (nodes : List (String × TreeNode))
    (cache : List (String × List String)) (qs : List String)
    (h : cache.length ≤ 41) :
    (runSearches nodes cache qs).length ≤ 41 := by
  induction qs generalizing cache with
  | nil => exact h
  | cons q rest ih => exact ih _ (searchCompute_cache_bound h)

/-- Witness for the amended C4 at a concrete tree and query sequence. -/
theorem C4_cache_bound_amended_witness :
    (runSearches (buildTree JsonValue.null).nodes [] ["a", "b"]).length ≤ 41 :=
  C4_cache_bound_amended (buildTree JsonValue.null).nodes [] ["a", "b"] (by decide)

/-! ### Structural invariants of `buildTree` -/

/-- Field coherence of a single node, as established at construction time
by `build`. -/
def NodeCoherent (nd : TreeNode) : Prop :=
  nd.kind = determineKind nd.value ∧
  nd.pathText = pathTextFromSegments nd.pathSegments ∧
  nd.hasChildren = (nd.kind == NodeKind.object || nd.kind == NodeKind.array) ∧
  nd.summary = summaryOf nd.value ∧
  nd.searchText = searchTextOf nd.displayKey nd.pathText nd.kind nd.value

/-- Invariant bundle for a chunk of nodes inserted by one (mutual) call of
`build`/`buildFields`/`buildItems`: the keys are the consecutive ids
`nodeId seq … nodeId (seq' - 1)` in insertion order, every entry is
coherent and at depth at least `d`, the top-level nodes of the chunk carry
parent `pid`, and parent/child links stay inside the chunk. -/
structure ChunkOk (d seq seq' : Nat) (pid : Option String) (tops : List String)
    (ns : List (String × TreeNode)) : Prop where
  keys : ns.map (fun e => e.1) = (List.range' seq (seq' - seq)).map nodeId
  le : seq ≤ seq'
  entry : ∀ e ∈ ns, e.2.id = e.1 ∧ NodeCoherent e.2 ∧ d ≤ e.2.depth ∧
    e.2.depth - d < seq' - seq
  parents : ∀ e ∈ ns, (e.1 ∈ tops ∧ e.2.parentId = pid ∧ e.2.depth = d) ∨
    (∃ p pn, e.2.parentId = some p ∧ (p, pn) ∈ ns ∧ e.2.depth = pn.depth + 1 ∧
      e.1 ∈ pn.childrenIds)
  children : ∀ e ∈ ns, ∀ c ∈ e.2.childrenIds, ∃ cn, (c, cn) ∈ ns ∧
    cn.parentId = some e.1 ∧ cn.depth = e.2.depth + 1
  tops_mem : ∀ t ∈ tops, ∃ tn, (t, tn) ∈ ns ∧ tn.depth = d ∧ tn.parentId = pid

theorem ChunkOk.empty (d seq : Nat) (pid : Option String) :
    ChunkOk d seq seq pid [] [] := by
  refine ⟨?_, le_refl _, ?_, ?_, ?_, ?_⟩ <;> simp

theorem ChunkOk.append {d seq s1 s2 : Nat} {pid : Option String}
    {t1 t2 : List String} {ns1 ns2 : List (String × TreeNode)}
    (h1 : ChunkOk d seq s1 pid t1 ns1) (h2 : ChunkOk d s1 s2 pid t2 ns2) :
    ChunkOk d seq s2 pid (t1 ++ t2) (ns1 ++ ns2) := by
  have hle : seq ≤ s2 := le_trans h1.le h2.le
  refine ⟨?_, hle, ?_, ?_, ?_, ?_⟩
  · rw [List.map_append, h1.keys, h2.keys, ← List.map_append]
    congr 1
    have hl1 := h1.le
    have hl2 := h2.le
    calc List.range' seq (s1 - seq) ++ List.range' s1 (s2 - s1)
        = List.range' seq (s1 - seq) ++ List.range' (seq + (s1 - seq)) (s2 - s1) := by
          congr 2
          omega
      _ = List.range' seq (s2 - s1 + (s1 - seq)) := List.range'_append_1 _ _ _
      _ = List.range' seq (s2 - seq) := by congr 1; omega
  · intro e he
    rcases List.mem_append.1 he with he | he
    · obtain ⟨ha, hb, hc, hd'⟩ := h1.entry e he
      exact ⟨ha, hb, hc, by have := h2.le; omega⟩
    · obtain ⟨ha, hb, hc, hd'⟩ := h2.entry e he
      exact ⟨ha, hb, hc, by have := h1.le; omega⟩
  · intro e he
    rcases List.mem_append.1 he with he | he
    · rcases h1.parents e he with h | ⟨p, pn, hp⟩
      · exact Or.inl ⟨List.mem_append_left _ h.1, h.2⟩
      · exact Or.inr ⟨p, pn, hp.1, List.mem_append_left _ hp.2.1, hp.2.2⟩
    · rcases h2.parents e he with h | ⟨p, pn, hp⟩
      · exact Or.inl ⟨List.mem_append_right _ h.1, h.2⟩
      · exact Or.inr ⟨p, pn, hp.1, List.mem_append_right _ hp.2.1, hp.2.2⟩
  · intro e he c hc
    rcases List.mem_append.1 he with he | he
    · rcases h1.children e he c hc with ⟨cn, hcn⟩
      exact ⟨cn, List.mem_append_left _ hcn.1, hcn.2⟩
    · rcases h2.children e he c hc with ⟨cn, hcn⟩
      exact ⟨cn, List.mem_append_right _ hcn.1, hcn.2⟩
  · intro t ht
    rcases List.mem_append.1 ht with ht | ht
    · rcases h1.tops_mem t ht with ⟨tn, htn⟩
      exact ⟨tn, List.mem_append_left _ htn.1, htn.2⟩
    · rcases h2.tops_mem t ht with ⟨tn, htn⟩
      exact ⟨tn, List.mem_append_right _ htn.1, htn.2⟩

theorem ChunkOk.cons {d seq seq' : Nat} {id : String} {pid : Option String}
    {cids : List String} {ns : List (String × TreeNode)} {node : TreeNode}
    (h : ChunkOk (d + 1) (seq + 1) seq' (some id) cids ns)
    (hid : id = nodeId seq)
    (hnid : node.id = id) (hnc : NodeCoherent node) (hnd : node.depth = d)
    (hnp : node.parentId = pid) (hncids : node.childrenIds = cids) :
    ChunkOk d seq seq' pid [id] ((id, node) :: ns) := by
  have hle : seq + 1 ≤ seq' := h.le
  refine ⟨?_, by omega, ?_, ?_, ?_, ?_⟩
  · rw [List.map_cons, h.keys]
    have hsz : seq' - seq = (seq' - (seq + 1)) + 1 := by omega
    rw [hsz, List.range'_succ, List.map_cons, hid]
  · intro e he
    rcases List.mem_cons.1 he with rfl | he
    · refine ⟨hnid, hnc, ?_, ?_⟩
      · show d ≤ node.depth
        omega
      · show node.depth - d < seq' - seq
        omega
    · obtain ⟨ha, hb, hc, hd'⟩ := h.entry e he
      exact ⟨ha, hb, by omega, by omega⟩
  · intro e he
    rcases List.mem_cons.1 he with rfl | he
    · exact Or.inl ⟨List.mem_singleton_self id, hnp, hnd⟩
    · rcases h.parents e he with ⟨htop, hpp, hdd⟩ | ⟨p, pn, hp⟩
      · refine Or.inr ⟨id, node, hpp, List.mem_cons_self _ _, by omega, ?_⟩
        rw [hncids]
        exact htop
      · exact Or.inr ⟨p, pn, hp.1, List.mem_cons_of_mem _ hp.2.1, hp.2.2⟩
  · intro e he c hc
    rcases List.mem_cons.1 he with rfl | he
    · have hc' : c ∈ cids := by
        have : (id, node).2.childrenIds = cids := hncids
        rwa [this] at hc
      rcases h.tops_mem c hc' with ⟨cn, hcn⟩
      refine ⟨cn, List.mem_cons_of_mem _ hcn.1, hcn.2.2, ?_⟩
      show cn.depth = node.depth + 1
      rw [hnd]
      exact hcn.2.1
    · rcases h.children e he c hc with ⟨cn, hcn⟩
      exact ⟨cn, List.mem_cons_of_mem _ hcn.1, hcn.2⟩
  · intro t ht
    rcases List.mem_singleton.1 ht with rfl
    exact ⟨node, List.mem_cons_self _ _, hnd, hnp⟩

mutual

theorem build_ok (v : JsonValue) (path : List PathSegment) (dk : Option String)
    (pid : Option String) (d seq : Nat) :
    (build v path dk pid d seq).1 = nodeId seq ∧
    ChunkOk d seq (build v path dk pid d seq).2.1 pid
      [(build v path dk pid d seq).1] (build v path dk pid d seq).2.2 := by
  cases v with
  | null =>
    exact ⟨rfl, ChunkOk.cons (ChunkOk.empty (d + 1) (seq + 1) (some (nodeId seq))) rfl rfl
      ⟨rfl, rfl, rfl, rfl, rfl⟩ rfl rfl rfl⟩
  | bool b =>
    exact ⟨rfl, ChunkOk.cons (ChunkOk.empty (d + 1) (seq + 1) (some (nodeId seq))) rfl rfl
      ⟨rfl, rfl, rfl, rfl, rfl⟩ rfl rfl rfl⟩
  | num i =>
    exact ⟨rfl, ChunkOk.cons (ChunkOk.empty (d + 1) (seq + 1) (some (nodeId seq))) rfl rfl
      ⟨rfl, rfl, rfl, rfl, rfl⟩ rfl rfl rfl⟩
  | str s =>
    exact ⟨rfl, ChunkOk.cons (ChunkOk.empty (d + 1) (seq + 1) (some (nodeId seq))) rfl rfl
      ⟨rfl, rfl, rfl, rfl, rfl⟩ rfl rfl rfl⟩
  | arr items =>
    have h1 := buildItems_ok items 0 path (nodeId seq) (d + 1) (seq + 1)
    exact ⟨rfl, ChunkOk.cons h1 rfl rfl ⟨rfl, rfl, rfl, rfl, rfl⟩ rfl rfl rfl⟩
  | obj fields =>
    have h1 := buildFields_ok fields path (nodeId seq) (d + 1) (seq + 1)
    exact ⟨rfl, ChunkOk.cons h1 rfl rfl ⟨rfl, rfl, rfl, rfl, rfl⟩ rfl rfl rfl⟩

theorem buildFields_ok (fields : List (String × JsonValue)) (path : List PathSegment)
    (pid : String) (d seq : Nat) :
    ChunkOk d seq (buildFields fields path pid d seq).2.1 (some pid)
      (buildFields fields path pid d seq).1 (buildFields fields path pid d seq).2.2 := by
  cases fields with
  | nil => exact ChunkOk.empty d seq (some pid)
  | cons f rest =>
    obtain ⟨key, child⟩ := f
    have h1 := build_ok child (path ++ [PathSegment.key key]) (some key) (some pid) d seq
    have h2 := buildFields_ok rest path pid d
      (build child (path ++ [PathSegment.key key]) (some key) (some pid) d seq).2.1
    have h3 := ChunkOk.append h1.2 h2
    exact h3

theorem buildItems_ok (items : List JsonValue) (index : Nat) (path : List PathSegment)
    (pid : String) (d seq : Nat) :
    ChunkOk d seq (buildItems items index path pid d seq).2.1 (some pid)
      (buildItems items index path pid d seq).1 (buildItems items index path pid d seq).2.2 := by
  cases items with
  | nil => exact ChunkOk.empty d seq (some pid)
  | cons child rest =>
    have h1 := build_ok child (path ++ [PathSegment.idx index]) (some (natStr index))
      (some pid) d seq
    have h2 := buildItems_ok rest (index + 1) path pid d
      (build child (path ++ [PathSegment.idx index]) (some (natStr index))
        (some pid) d seq).2.1
    have h3 := ChunkOk.append h1.2 h2
    exact h3

end

/-- Invariant bundle for the whole tree built by `buildTree`. -/
theorem buildTree_chunk (v : JsonValue) :
    (buildTree v).rootIds = [nodeId 0] ∧
    ChunkOk 0 0 ((buildTree v).nodes.length) none [nodeId 0] (buildTree v).nodes := by
  have h := build_ok v [] none none 0 0
  have hroot : (buildTree v).rootIds = [(build v [] none none 0 0).1] := rfl
  have hnodes : (buildTree v).nodes = (build v [] none none 0 0).2.2 := rfl
  have hchunk := h.2
  rw [h.1] at hroot hchunk
  refine ⟨hroot, ?_⟩
  have hlen : (buildTree v).nodes.length = (build v [] none none 0 0).2.1 := by
    have hk := hchunk.keys
    have := congrArg List.length hk
    simp only [List.length_map, List.length_range'] at this
    rw [hnodes]
    omega
  rw [hlen, hnodes]
  exact hchunk

theorem buildTree_keys_nodup (v : JsonValue) :
    ((buildTree v).nodes.map (fun e => e.1)).Nodup := by
  rw [(buildTree_chunk v).2.keys]
  exact (List.nodup_range' _ _).map nodeId_injective

theorem lookupNode_eq_some_iff_mem {nodes : List (String × TreeNode)}
    (hnodup : (nodes.map (fun e => e.1)).Nodup) {i : String} {n : TreeNode} :
    lookupNode nodes i = some n ↔ (i, n) ∈ nodes := by
  constructor
  · intro h
    unfold lookupNode at h
    cases hf : nodes.find? (fun e => e.1 == i) with
    | none => rw [hf] at h; simp at h
    | some e =>
      rw [hf] at h
      simp only [Option.map_some', Option.some.injEq] at h
      have hmem := List.mem_of_find?_eq_some hf
      have hpred := List.find?_some hf
      simp only [beq_iff_eq] at hpred
      have : e = (i, n) := by cases e; simp_all
      rwa [this] at hmem
  · intro h
    exact lookupNode_self hnodup (e := (i, n)) h

/-! ### Visibility resolver (`visibleScopeSet`, `visibleIds`) -/

/-- Model of the ancestor walk in `visibleScopeSet`: follow `parentId`
upward from `start`, collecting every visited id.  The fuel argument
bounds the walk; the source loop terminates because parent depths
strictly decrease. -/
def ancestorChain (nodes : List (String × TreeNode)) : Nat → Option String → List String
  | 0, _ => []
  | _, none => []
  | fuel + 1, some id =>
    id :: ancestorChain nodes fuel ((lookupNode nodes id).bind (fun n => n.parentId))

/-- Model of `visibleScopeSet` for a non-empty query: every match id
together with all of its ancestors up to the root. -/
def scopeSet (nodes : List (String × TreeNode)) (matchIds : List String) : List String :=
  matchIds.flatMap (fun m => ancestorChain nodes (nodes.length + 1) (some m))

/-- Model of `visibleScopeSet?.has(id) ?? false`. -/
def scopeHas (scope : Option (List String)) (id : String) : Bool :=
  match scope with
  | none => false
  | some s => s.contains id

/-- Model of the recursive `traverse` of `visibleIds`.  The fuel bounds
the recursion depth; the source recursion is bounded by the tree depth. -/
def traverseVis (nodes : List (String × TreeNode)) (collapsedIds : List String)
    (q : String) (scope : Option (List String)) : Nat → String → List String
  | 0, _ => []
  | fuel + 1, id =>
    match lookupNode nodes id with
    | none => []
    | some node =>
      if q ≠ "" ∧ scope.isSome ∧ scopeHas scope id = false then []
      else
        id :: (if 0 < node.childrenIds.length ∧
              (id ∉ collapsedIds ∨ (q ≠ "" ∧ scopeHas scope id = true))
          then node.childrenIds.flatMap (traverseVis nodes collapsedIds q scope fuel)
          else [])

/-- Model of the `visibleIds` memo, parameterized by the match-id list the
source takes from `searchMatchIds`: the scope is `none` for the empty
query, otherwise matches plus ancestors, and the pre-order traversal
starts at the roots. -/
def visibleIds (t : TreeData) (collapsedIds : List String) (q : String)
    (matchIds : List String) : List String :=
  let scope : Option (List String) :=
    if q = "" then none else some (scopeSet t.nodes matchIds)
  t.rootIds.flatMap
    (fun r => traverseVis t.nodes collapsedIds q scope (t.nodes.length + 1) r)

/-! ### C8: well-formedness of every built tree -/

/-- Parent-to-child edge in the flat node map. -/
def childEdge (t : TreeData) (a b : String) : Prop :=
  ∃ n, lookupNode t.nodes a = some n ∧ b ∈ n.childrenIds

/-- Well-formedness of a tree as claim C8 states it: every id referenced
by `childrenIds` or `parentId` exists in the node map, the (finite)
child graph is acyclic, there is exactly one root, and depths satisfy
`0` at the root and parent depth plus one elsewhere. -/
def WellFormedTree (t : TreeData) : Prop :=
  (∀ e ∈ t.nodes, ∀ c ∈ e.2.childrenIds, ∃ cn, lookupNode t.nodes c = some cn) ∧
  (∀ e ∈ t.nodes, ∀ p, e.2.parentId = some p → ∃ pn, lookupNode t.nodes p = some pn) ∧
  (∀ a, ¬ Relation.TransGen (childEdge t) a a) ∧
  (∃ r, t.rootIds = [r] ∧
    ∀ e ∈ t.nodes,
      (e.1 = r → e.2.depth = 0 ∧ e.2.parentId = none) ∧
      (∀ p, e.2.parentId = some p →
        ∃ pn, lookupNode t.nodes p = some pn ∧ e.2.depth = pn.depth + 1))

theorem childEdge_depth {v : JsonValue} {a b : String}
    (h : childEdge (buildTree v) a b) :
    ∃ an bn, lookupNode (buildTree v).nodes a = some an ∧
      lookupNode (buildTree v).nodes b = some bn ∧ bn.depth = an.depth + 1 := by
  obtain ⟨an, ha, hb⟩ := h
  have hnodup := buildTree_keys_nodup v
  have hamem : (a, an) ∈ (buildTree v).nodes := (lookupNode_eq_some_iff_mem hnodup).1 ha
  obtain ⟨cn, hcn, _, hdep⟩ := (buildTree_chunk v).2.children (a, an) hamem b hb
  exact ⟨an, cn, ha, (lookupNode_eq_some_iff_mem hnodup).2 hcn, hdep⟩

theorem transGen_childEdge_depth {v : JsonValue} {a b : String}
    (h : Relation.TransGen (childEdge (buildTree v)) a b) :
    ∃ an bn, lookupNode (buildTree v).nodes a = some an ∧
      lookupNode (buildTree v).nodes b = some bn ∧ an.depth < bn.depth := by
  induction h with
  | single h =>
    obtain ⟨an, bn, ha, hb, hd⟩ := childEdge_depth h
    exact ⟨an, bn, ha, hb, by omega⟩
  | tail _ h ih =>
    obtain ⟨an, cn, ha, hc, hlt⟩ := ih
    obtain ⟨cn', bn, hc', hb, hd⟩ := childEdge_depth h
    rw [hc] at hc'
    obtain rfl := Option.some.inj hc'
    exact ⟨an, bn, ha, hb, by omega⟩

/-- C8: every tree produced by the tree indexer is well-formed — child and
parent references exist in the node map, the finite parent/child graph is
acyclic, `rootIds` holds exactly one id, and the root has depth `0` while
every other node's depth is its parent's depth plus one. -/
theorem C8_tree_well_formed (v : JsonValue) : WellFormedTree (buildTree v) := by
  obtain ⟨hroot, hchunk⟩ := buildTree_chunk v
  have hnodup := buildTree_keys_nodup v
  refine ⟨?_, ?_, ?_, ?_⟩
  · intro e he c hc
    obtain ⟨cn, hcn, _, _⟩ := hchunk.children e he c hc
    exact ⟨cn, (lookupNode_eq_some_iff_mem hnodup).2 hcn⟩
  · intro e he p hp
    rcases hchunk.parents e he with ⟨_, hpid, _⟩ | ⟨p', pn, hp', hpn, _, _⟩
    · rw [hpid] at hp
      simp at hp
    · rw [hp'] at hp
      obtain rfl := Option.some.inj hp
      exact ⟨pn, (lookupNode_eq_some_iff_mem hnodup).2 hpn⟩
  · intro a ha
    obtain ⟨an, bn, ha', hb', hlt⟩ := transGen_childEdge_depth ha
    rw [ha'] at hb'
    obtain rfl := Option.some.inj hb'
    omega
  · refine ⟨nodeId 0, hroot, ?_⟩
    intro e he
    constructor
    · intro hr
      obtain ⟨rn, hrn, hrd, hrp⟩ := hchunk.tops_mem (nodeId 0) (List.mem_singleton_self _)
      have h1 : lookupNode (buildTree v).nodes e.1 = some e.2 := lookupNode_self hnodup he
      have h2 : lookupNode (buildTree v).nodes (nodeId 0) = some rn :=
        (lookupNode_eq_some_iff_mem hnodup).2 hrn
      rw [hr] at h1
      rw [h1] at h2
      obtain rfl := Option.some.inj h2
      exact ⟨hrd, hrp⟩
    · intro p hp
      rcases hchunk.parents e he with ⟨_, hpid, _⟩ | ⟨p', pn, hp', hpn, hdep, _⟩
      · rw [hpid] at hp
        simp at hp
      · rw [hp'] at hp
        obtain rfl := Option.some.inj hp
        exact ⟨pn, (lookupNode_eq_some_iff_mem hnodup).2 hpn, hdep⟩

/-! ### C1: matches and their ancestors are always visible -/

theorem mem_unique_of_nodup {nodes : List (String × TreeNode)}
    (hnodup : (nodes.map (fun e => e.1)).Nodup) {i : String} {n1 n2 : TreeNode}
    (h1 : (i, n1) ∈ nodes) (h2 : (i, n2) ∈ nodes) : n1 = n2 := by
  have e1 := lookupNode_self hnodup (e := (i, n1)) h1
  have e2 := lookupNode_self hnodup (e := (i, n2)) h2
  rw [e1] at e2
  exact Option.some.inj e2

theorem buildTree_parent_mem {v : JsonValue} {e : String × TreeNode}
    (he : e ∈ (buildTree v).nodes) {p : String} (hp : e.2.parentId = some p) :
    ∃ pn, (p, pn) ∈ (buildTree v).nodes ∧ e.2.depth = pn.depth + 1 := by
  rcases (buildTree_chunk v).2.parents e he with ⟨_, hpid, _⟩ | ⟨p', pn, hp', hpn, hdep, _⟩
  · rw [hpid] at hp
    simp at hp
  · rw [hp'] at hp
    obtain rfl := Option.some.inj hp
    exact ⟨pn, hpn, hdep⟩

theorem ancestorChain_none (nodes : List (String × TreeNode)) (fuel : Nat) :
    ancestorChain nodes fuel none = [] := by
  cases fuel <;> rfl

theorem ancestorChain_unfold {v : JsonValue} {x : String} {xn : TreeNode}
    (hx : (x, xn) ∈ (buildTree v).nodes) (fuel : Nat) :
    ancestorChain (buildTree v).nodes (fuel + 1) (some x) =
      x :: ancestorChain (buildTree v).nodes fuel xn.parentId := by
  have hl := lookupNode_self (buildTree_keys_nodup v) (e := (x, xn)) hx
  show x :: ancestorChain _ fuel ((lookupNode _ x).bind (fun n => n.parentId)) = _
  rw [hl]
  rfl

theorem chain_irrel {v : JsonValue} :
    ∀ (k : Nat) (x : String) (xn : TreeNode), (x, xn) ∈ (buildTree v).nodes →
      xn.depth = k → ∀ f1 f2, k < f1 → k < f2 →
        ancestorChain (buildTree v).nodes f1 (some x) =
          ancestorChain (buildTree v).nodes f2 (some x) := by
  intro k
  induction k using Nat.strongRecOn with
  | ind k ih =>
    intro x xn hx hd f1 f2 h1 h2
    obtain ⟨a, rfl⟩ : ∃ a, f1 = a + 1 := ⟨f1 - 1, by omega⟩
    obtain ⟨b, rfl⟩ : ∃ b, f2 = b + 1 := ⟨f2 - 1, by omega⟩
    rw [ancestorChain_unfold hx, ancestorChain_unfold hx]
    cases hp : xn.parentId with
    | none => rw [ancestorChain_none, ancestorChain_none]
    | some p =>
      obtain ⟨pn, hpmem, hdep⟩ := buildTree_parent_mem hx hp
      have hdep' : xn.depth = pn.depth + 1 := hdep
      rw [ih pn.depth (by omega) p pn hpmem rfl a b (by omega) (by omega)]

theorem chain_main {v : JsonValue} :
    ∀ (k : Nat) (x : String) (xn : TreeNode), (x, xn) ∈ (buildTree v).nodes →
      xn.depth = k → ∀ fuel, k < fuel →
        x ∈ ancestorChain (buildTree v).nodes fuel (some x) ∧
        ∀ y ∈ ancestorChain (buildTree v).nodes fuel (some x),
          ∃ yn, (y, yn) ∈ (buildTree v).nodes ∧ yn.depth ≤ k ∧
            (∀ p, yn.parentId = some p →
              p ∈ ancestorChain (buildTree v).nodes fuel (some x)) ∧
            (∀ g, yn.depth < g →
              ∀ z ∈ ancestorChain (buildTree v).nodes g (some y),
                z ∈ ancestorChain (buildTree v).nodes fuel (some x)) := by
  intro k
  induction k using Nat.strongRecOn with
  | ind k ih =>
    intro x xn hx hd fuel hfuel
    obtain ⟨f, rfl⟩ : ∃ f, fuel = f + 1 := ⟨fuel - 1, by omega⟩
    rw [ancestorChain_unfold hx]
    cases hp : xn.parentId with
    | none =>
      rw [ancestorChain_none]
      refine ⟨List.mem_singleton_self x, ?_⟩
      intro y hy
      obtain rfl := List.mem_singleton.1 hy
      refine ⟨xn, hx, le_of_eq hd, ?_, ?_⟩
      · intro p hpp
        rw [hp] at hpp
        simp at hpp
      · intro g hg z hz
        have : ancestorChain (buildTree v).nodes g (some y) =
            ancestorChain (buildTree v).nodes (f + 1) (some y) :=
          chain_irrel xn.depth y xn hx rfl g (f + 1) hg (by omega)
        rw [this, ancestorChain_unfold hx, hp, ancestorChain_none] at hz
        exact hz
    | some p =>
      obtain ⟨pn, hpmem, hdep⟩ := buildTree_parent_mem hx hp
      have hdep' : xn.depth = pn.depth + 1 := hdep
      have hpk : pn.depth < k := by omega
      have hpf : pn.depth < f := by omega
      obtain ⟨hphead, hpmain⟩ := ih pn.depth hpk p pn hpmem rfl f hpf
      refine ⟨List.mem_cons_self _ _, ?_⟩
      intro y hy
      rcases List.mem_cons.1 hy with rfl | hy
      · refine ⟨xn, hx, le_of_eq hd, ?_, ?_⟩
        · intro p' hpp
          rw [hp] at hpp
          obtain rfl := Option.some.inj hpp
          exact List.mem_cons_of_mem _ hphead
        · intro g hg z hz
          have : ancestorChain (buildTree v).nodes g (some y) =
              ancestorChain (buildTree v).nodes (f + 1) (some y) :=
            chain_irrel xn.depth y xn hx rfl g (f + 1) hg (by omega)
          rw [this] at hz
          rw [ancestorChain_unfold hx, hp] at hz
          exact hz
      · obtain ⟨yn, hymem, hydep, hypar, hysub⟩ := hpmain y hy
        refine ⟨yn, hymem, by omega, ?_, ?_⟩
        · intro p' hpp
          exact List.mem_cons_of_mem _ (hypar p' hpp)
        · intro g hg z hz
          exact List.mem_cons_of_mem _ (hysub g hg z hz)

/-- A concrete pre-order path through children links. -/
inductive PathTo (nodes : List (String × TreeNode)) : String → List String → String → Prop where
  | nil (a : String) : PathTo nodes a [] a
  | cons {a c b : String} {p : List String} {n : TreeNode}
      (ha : lookupNode nodes a = some n) (hc : c ∈ n.childrenIds)
      (hp : PathTo nodes c p b) : PathTo nodes a (c :: p) b

theorem PathTo.snoc {nodes : List (String × TreeNode)} {a b c : String}
    {p : List String} {bn : TreeNode} (h : PathTo nodes a p b) :
    lookupNode nodes b = some bn → c ∈ bn.childrenIds → PathTo nodes a (p ++ [c]) c := by
  induction h with
  | nil a =>
    intro hb hc
    exact PathTo.cons hb hc (PathTo.nil c)
  | cons ha hc' _ ih =>
    intro hb hc
    exact PathTo.cons ha hc' (ih hb hc)

theorem path_exists {v : JsonValue} :
    ∀ (k : Nat) (e : String × TreeNode), e ∈ (buildTree v).nodes → e.2.depth = k →
      ∃ p, PathTo (buildTree v).nodes (nodeId 0) p e.1 ∧ p.length = k := by
  intro k
  induction k using Nat.strongRecOn with
  | ind k ih =>
    intro e he hd
    rcases (buildTree_chunk v).2.parents e he with ⟨htop, _, hd0⟩ | ⟨p, pn, hp, hpn, hdep, hcid⟩
    · have he1 : e.1 = nodeId 0 := List.mem_singleton.1 htop
      have hk0 : k = 0 := by omega
      subst hk0
      refine ⟨[], ?_, rfl⟩
      rw [he1]
      exact PathTo.nil _
    · have hpk : pn.depth < k := by omega
      obtain ⟨pp, hpath, hlen⟩ := ih pn.depth hpk (p, pn) hpn rfl
      have hlp := lookupNode_self (buildTree_keys_nodup v) (e := (p, pn)) hpn
      refine ⟨pp ++ [e.1], hpath.snoc hlp hcid, ?_⟩
      simp only [List.length_append, List.length_singleton, hlen]
      omega

theorem path_mem_chain {v : JsonValue} {fuel : Nat} :
    ∀ {a b : String} {p : List String}, PathTo (buildTree v).nodes a p b →
      ∀ bn, (b, bn) ∈ (buildTree v).nodes → bn.depth < fuel →
        ∀ y ∈ a :: p, y ∈ ancestorChain (buildTree v).nodes fuel (some b) := by
  intro a b p h
  induction h with
  | nil a =>
    intro bn hb hf y hy
    obtain rfl := List.mem_singleton.1 hy
    exact (chain_main bn.depth y bn hb rfl fuel hf).1
  | cons ha hc hrest ih =>
    next a c b p n =>
    intro bn hb hf y hy
    have hcn := ih bn hb hf
    rcases List.mem_cons.1 hy with rfl | hy
    · have hcchain : c ∈ ancestorChain (buildTree v).nodes fuel (some b) :=
        hcn c (List.mem_cons_self _ _)
      have hamem : (y, n) ∈ (buildTree v).nodes :=
        (lookupNode_eq_some_iff_mem (buildTree_keys_nodup v)).1 ha
      obtain ⟨cn, hcmem, hcpar, _⟩ := (buildTree_chunk v).2.children (y, n) hamem c hc
      obtain ⟨cn', hcmem', _, hpar', _⟩ := (chain_main bn.depth b bn hb rfl fuel hf).2 c hcchain
      have : cn' = cn := mem_unique_of_nodup (buildTree_keys_nodup v) hcmem' hcmem
      subst this
      exact hpar' y hcpar
    · exact hcn y hy

theorem traverseVis_visit {nodes : List (String × TreeNode)}
    {collapsedIds : List String} {q : String} {S : List String} {fuel : Nat}
    {id : String} {node : TreeNode}
    (hl : lookupNode nodes id = some node) (hin : S.contains id = true) :
    traverseVis nodes collapsedIds q (some S) (fuel + 1) id =
      id :: (if 0 < node.childrenIds.length ∧
            (id ∉ collapsedIds ∨ (q ≠ "" ∧ scopeHas (some S) id = true))
        then node.childrenIds.flatMap (traverseVis nodes collapsedIds q (some S) fuel)
        else []) := by
  simp only [traverseVis, hl]
  rw [if_neg]
  simp only [scopeHas, hin, Option.isSome_some]
  simp

theorem traverse_emits {v : JsonValue} {c : List String} {q : String}
    {S : List String} (hq : q ≠ "") :
    ∀ {a x : String} {p : List String}, PathTo (buildTree v).nodes a p x →
      ∀ an, (a, an) ∈ (buildTree v).nodes → a ∈ S → (∀ y ∈ p, y ∈ S) →
        ∀ fuel, p.length < fuel →
          x ∈ traverseVis (buildTree v).nodes c q (some S) fuel a := by
  intro a x p h
  induction h with
  | nil a =>
    intro an ha haS _ fuel hfuel
    obtain ⟨f, rfl⟩ : ∃ f, fuel = f + 1 := ⟨fuel - 1, by omega⟩
    have hl := lookupNode_self (buildTree_keys_nodup v) (e := (a, an)) ha
    have hcont : S.contains a = true := List.elem_eq_true_of_mem haS
    rw [traverseVis_visit hl hcont]
    exact List.mem_cons_self _ _
  | cons ha hc hrest ih =>
    next a c b p n =>
    intro an hamem haS hpS fuel hfuel
    obtain ⟨f, rfl⟩ : ∃ f, fuel = f + 1 := ⟨fuel - 1, by omega⟩
    have hcont : S.contains a = true := List.elem_eq_true_of_mem haS
    have hanodes : (a, n) ∈ (buildTree v).nodes :=
      (lookupNode_eq_some_iff_mem (buildTree_keys_nodup v)).1 ha
    obtain ⟨cn, hcmem, _, _⟩ := (buildTree_chunk v).2.children (a, n) hanodes c hc
    have hrec := ih cn hcmem (hpS c (List.mem_cons_self _ _))
      (fun y hy => hpS y (List.mem_cons_of_mem _ hy)) f (by simpa using hfuel)
    rw [traverseVis_visit ha hcont]
    rw [if_pos ⟨List.length_pos_of_mem hc, Or.inr ⟨hq, hcont⟩⟩]
    exact List.mem_cons_of_mem _ (List.mem_flatMap.2 ⟨c, hc, hrec⟩)

/-- C1: for every built tree, every collapse state and every non-empty
normalized query, the visible-id sequence contains every search match and
every ancestor of every match (the scope set), even when ancestors are in
the collapse state. -/
theorem C1_scope_always_visible (v : JsonValue) (collapsedIds : List String) (q : String)
    (hq : q ≠ "") (x : String)
    (hx : x ∈ scopeSet (buildTree v).nodes (searchNaive (buildTree v).nodes q)) :
    x ∈ visibleIds (buildTree v) collapsedIds q (searchNaive (buildTree v).nodes q) := by
  classical
  set nodes := (buildTree v).nodes with hnodes
  set matchIds := searchNaive nodes q with hmatch
  have hnodup := buildTree_keys_nodup v
  obtain ⟨m, hm, hxc⟩ := List.mem_flatMap.1 hx
  obtain ⟨em, hem, hem1⟩ : ∃ em, em ∈ nodes.filter (fun e => strIncludes e.2.searchText q) ∧
      em.1 = m := by
    obtain ⟨em, h1, h2⟩ := List.mem_map.1 hm
    exact ⟨em, h1, h2⟩
  have hemmem : em ∈ nodes := List.mem_of_mem_filter hem
  have hmmem : (m, em.2) ∈ nodes := by
    rw [← hem1]
    exact hemmem
  have hmdepth : em.2.depth < nodes.length := by
    obtain ⟨_, _, _, hb⟩ := (buildTree_chunk v).2.entry em hemmem
    have hb' : em.2.depth - 0 < nodes.length - 0 := hb
    omega
  obtain ⟨_, hmmain⟩ := chain_main em.2.depth m em.2 hmmem rfl (nodes.length + 1)
    (by omega)
  obtain ⟨xn, hxmem, hxdep, _, hxsub⟩ := hmmain x hxc
  have hxdepth : xn.depth < nodes.length := by
    obtain ⟨_, _, _, hb⟩ := (buildTree_chunk v).2.entry (x, xn) hxmem
    have hb' : xn.depth - 0 < nodes.length - 0 := hb
    omega
  obtain ⟨pp, hpath, hplen⟩ := path_exists xn.depth (x, xn) hxmem rfl
  have hchainx : ∀ y ∈ nodeId 0 :: pp,
      y ∈ ancestorChain nodes (nodes.length + 1) (some x) :=
    path_mem_chain hpath xn hxmem (by omega)
  have hscope : ∀ y ∈ nodeId 0 :: pp,
      y ∈ scopeSet nodes matchIds := by
    intro y hy
    have hyx := hchainx y hy
    have hym : y ∈ ancestorChain nodes (nodes.length + 1) (some m) :=
      hxsub (nodes.length + 1) (by omega) y hyx
    exact List.mem_flatMap.2 ⟨m, hm, hym⟩
  obtain ⟨rn, hrn, _, _⟩ := (buildTree_chunk v).2.tops_mem (nodeId 0)
    (List.mem_singleton_self _)
  have hemit := traverse_emits (v := v) (c := collapsedIds)
    (S := scopeSet nodes matchIds) hq hpath rn hrn
    (hscope (nodeId 0) (List.mem_cons_self _ _))
    (fun y hy => hscope y (List.mem_cons_of_mem _ hy))
    (nodes.length + 1) (by omega)
  unfold visibleIds
  rw [if_neg hq, (buildTree_chunk v).1]
  simpa using hemit

/-- Witness for C1: in `{"a":{"b":{"c":"hit"}}}` searching `"hit"` with
`$.a` (id `node-1`) manually collapsed, the nodes of `$`, `$.a`, `$.a.b`
and `$.a.b.c` are all in the visible-id sequence. -/
theorem C1_scope_always_visible_witness :
    "node-0" ∈ visibleIds (buildTree sampleJson) ["node-1"] "hit"
      (searchNaive (buildTree sampleJson).nodes "hit") ∧
    "node-1" ∈ visibleIds (buildTree sampleJson) ["node-1"] "hit"
      (searchNaive (buildTree sampleJson).nodes "hit") ∧
    "node-2" ∈ visibleIds (buildTree sampleJson) ["node-1"] "hit"
      (searchNaive (buildTree sampleJson).nodes "hit") ∧
    "node-3" ∈ visibleIds (buildTree sampleJson) ["node-1"] "hit"
      (searchNaive (buildTree sampleJson).nodes "hit") :=
  ⟨C1_scope_always_visible sampleJson ["node-1"] "hit" (by decide) "node-0" (by decide),
   C1_scope_always_visible sampleJson ["node-1"] "hit" (by decide) "node-1" (by decide),
   C1_scope_always_visible sampleJson ["node-1"] "hit" (by decide) "node-2" (by decide),
   C1_scope_always_visible sampleJson ["node-1"] "hit" (by decide) "node-3" (by decide)⟩

/-! ### C3: the searchText formula -/

instance : Inhabited TreeNode :=
  ⟨{ id := "", displayKey := none, value := JsonValue.null, kind := NodeKind.null,
     depth := 0, pathSegments := [], pathText := "", parentId := none,
     childrenIds := [], hasChildren := false, summary := "", searchText := "" }⟩

/-- The searchText formula exactly as claim C3 words it (spec-side): the
third joined component is always the kind label. -/
def searchTextClaimed (nd : TreeNode) : String :=
  jsToLower (String.intercalate " "
    [nd.displayKey.getD "", nd.pathText, kindLabel nd.kind, nd.summary])

/-- C3 (counterexample): in the tree built for the number `5`, the node's
`searchText` is not the claimed concatenation using the kind label, and in
particular the label `number` does not occur in it. -/
theorem C3_counterexample :
    ((buildTree (JsonValue.num 5)).nodes.all
      (fun e => e.2.searchText == searchTextClaimed e.2)) = false ∧
    ((buildTree (JsonValue.num 5)).nodes.all
      (fun e => subList "number".toList e.2.searchText.toList)) = false := by
  exact ⟨by decide, by decide⟩

/-- C3 (amended): for every node of every built tree, `searchText` is the
lower-cased space-joined concatenation of the display key, the path text,
a third component — the kind label for containers but JavaScript
`String(value)` for scalars — and the summary. -/
theorem C3_searchText_amended (v : JsonValue) (e : String × TreeNode)
    (h : e ∈ (buildTree v).nodes) :
    e.2.searchText =
      jsToLower (String.intercalate " "
        [e.2.displayKey.getD "", e.2.pathText,
          match e.2.kind with
          | NodeKind.object => "object"
          | NodeKind.array => "array"
          | _ => jsString e.2.value,
          e.2.summary]) := by
  obtain ⟨_, hco, _, _⟩ := (buildTree_chunk v).2.entry e h
  obtain ⟨hkind, hpath, hhc, hsum, hst⟩ := hco
  rw [hst]
  unfold searchTextOf
  rw [← hsum]

/-- The single node of `buildTree (num 5)`, the witness input for C3. -/
def c3entry : String × TreeNode := (buildTree (JsonValue.num 5)).nodes.headI

/-- Witness for the amended C3 at the concrete number document `5`. -/
theorem C3_searchText_amended_witness : c3entry.2.searchText = " $ 5 5" := by
  have hmem : c3entry ∈ (buildTree (JsonValue.num 5)).nodes := List.mem_cons_self _ _
  rw [C3_searchText_amended (JsonValue.num 5) c3entry hmem]
  decide

/-! ### C10: copy-value and copy-subtree semantics -/

/-- C10: for string-kind nodes the copy-value operation returns the raw
string content (no JSON quotes); for every other kind it returns the
compact serialization; copy-subtree always returns the 2-space-indented
serialization. -/
theorem C10_copy_semantics (v : JsonValue) (e : String × TreeNode)
    (h : e ∈ (buildTree v).nodes) :
    (e.2.kind = NodeKind.string →
      ∃ s, e.2.value = JsonValue.str s ∧ getValueForCopy e.2 CopyKind.value = s) ∧
    (e.2.kind ≠ NodeKind.string →
      getValueForCopy e.2 CopyKind.value = jsonStringifyCompact e.2.value) ∧
    getValueForCopy e.2 CopyKind.subtree = jsonStringifyIndent2 e.2.value := by
  obtain ⟨_, hco, _, _⟩ := (buildTree_chunk v).2.entry e h
  obtain ⟨hkind, _, _, _, _⟩ := hco
  refine ⟨?_, ?_, rfl⟩
  · intro hk
    have hdk : determineKind e.2.value = NodeKind.string := by rw [← hkind]; exact hk
    cases hval : e.2.value with
    | str s =>
      refine ⟨s, rfl, ?_⟩
      show (if e.2.kind = NodeKind.string then jsString e.2.value
        else jsonStringifyCompact e.2.value) = s
      rw [if_pos hk, hval]
      simp [jsString]
    | null => rw [hval] at hdk; simp [determineKind] at hdk
    | bool b => rw [hval] at hdk; simp [determineKind] at hdk
    | num i => rw [hval] at hdk; simp [determineKind] at hdk
    | arr items => rw [hval] at hdk; simp [determineKind] at hdk
    | obj fields => rw [hval] at hdk; simp [determineKind] at hdk
  · intro hk
    show (if e.2.kind = NodeKind.string then jsString e.2.value
      else jsonStringifyCompact e.2.value) = _
    rw [if_neg hk]

/-- The single node of `buildTree (str "hi")`, the witness input for C10. -/
def c10entry : String × TreeNode := (buildTree (JsonValue.str "hi")).nodes.headI

/-- Witness for C10 at the concrete string document `"hi"`. -/
theorem C10_copy_semantics_witness :
    getValueForCopy c10entry.2 CopyKind.value = "hi" ∧
    getValueForCopy c10entry.2 CopyKind.subtree = "\"hi\"" := by
  have hmem : c10entry ∈ (buildTree (JsonValue.str "hi")).nodes := List.mem_cons_self _ _
  have h := C10_copy_semantics (JsonValue.str "hi") c10entry hmem
  constructor
  · obtain ⟨s, hs, hres⟩ := h.1 rfl
    have hv : JsonValue.str "hi" = JsonValue.str s := hs
    have hss := JsonValue.str.inj hv
    subst hss
    exact hres
  · exact h.2.2.trans (by decide)

/-! ### UTF-8 (model of `TextEncoder` / `TextDecoder("utf-8")`) -/

/-- UTF-8 encoding of one Unicode scalar value. -/
def utf8EncodeChar (c : Char) : List Nat :=
  let n := c.toNat
  if n < 128 then [n]
  else if n < 2048 then [192 + n / 64, 128 + n % 64]
  else if n < 65536 then [224 + n / 4096, 128 + (n / 64) % 64, 128 + n % 64]
  else [240 + n / 262144, 128 + (n / 4096) % 64, 128 + (n / 64) % 64, 128 + n % 64]

/-- Model of `new TextEncoder().encode(s)`: the UTF-8 bytes of `s`. -/
def utf8Bytes (s : String) : List Nat := s.toList.flatMap utf8EncodeChar

/-- Whether a byte is a UTF-8 continuation byte. -/
def contByte (b : Nat) : Bool := 128 ≤ b && b < 192

/-- Strict UTF-8 decoding of one scalar value (returns its codepoint and
the remaining bytes; rejects malformed, overlong, surrogate and
out-of-range sequences). -/
def utf8DecodeOne : List Nat → Option (Nat × List Nat)
  | [] => none
  | b0 :: rest =>
    if b0 < 128 then some (b0, rest)
    else if b0 < 194 then none
    else if b0 < 224 then
      match rest with
      | b1 :: r => if contByte b1 then some ((b0 - 192) * 64 + (b1 - 128), r) else none
      | [] => none
    else if b0 < 240 then
      match rest with
      | b1 :: b2 :: r =>
        if contByte b1 && contByte b2 then
          let n := (b0 - 224) * 4096 + (b1 - 128) * 64 + (b2 - 128)
          if n < 2048 ∨ (55296 ≤ n ∧ n < 57344) then none else some (n, r)
        else none
      | _ => none
    else if b0 < 245 then
      match rest with
      | b1 :: b2 :: b3 :: r =>
        if contByte b1 && contByte b2 && contByte b3 then
          let n := (b0 - 240) * 262144 + (b1 - 128) * 4096 + (b2 - 128) * 64 + (b3 - 128)
          if n < 65536 ∨ 1114112 ≤ n then none else some (n, r)
        else none
      | _ => none
    else none

/-- Strict UTF-8 decoding of a whole byte list (used by the
`decodeURIComponent` model, which throws on malformed input). -/
def utf8DecodeAll : Nat → List Nat → Option (List Char)
  | _, [] => some []
  | 0, _ :: _ => none
  | fuel + 1, b :: bs =>
    match utf8DecodeOne (b :: bs) with
    | none => none
    | some (n, r) => (utf8DecodeAll fuel r).map (fun cs => Char.ofNat n :: cs)

/-- Lenient UTF-8 decoding (model of the default non-fatal
`TextDecoder("utf-8")`, which substitutes U+FFFD on errors and never
throws). -/
def utf8Lenient : Nat → List Nat → List Char
  | _, [] => []
  | 0, _ :: _ => []
  | fuel + 1, b :: bs =>
    match utf8DecodeOne (b :: bs) with
    | some (n, r) => Char.ofNat n :: utf8Lenient fuel r
    | none => Char.ofNat 65533 :: utf8Lenient fuel bs

theorem char_toNat_valid (c : Char) :
    c.toNat < 55296 ∨ (57343 < c.toNat ∧ c.toNat < 1114112) := c.valid

theorem utf8DecodeOne_encode (c : Char) (rest : List Nat) :
    utf8DecodeOne (utf8EncodeChar c ++ rest) = some (c.toNat, rest) := by
  have hval := char_toNat_valid c
  unfold utf8EncodeChar
  by_cases h1 : c.toNat < 128
  · rw [if_pos h1]
    show utf8DecodeOne (c.toNat :: rest) = _
    simp only [utf8DecodeOne]
    rw [if_pos h1]
  · rw [if_neg h1]
    by_cases h2 : c.toNat < 2048
    · rw [if_pos h2]
      show utf8DecodeOne ((192 + c.toNat / 64) :: (128 + c.toNat % 64) :: rest) = _
      simp only [utf8DecodeOne]
      rw [if_neg (by omega), if_neg (by omega), if_pos (by omega)]
      rw [if_pos (by simp only [contByte, Bool.and_eq_true, decide_eq_true_eq]; omega)]
      simp only [Option.some.injEq, Prod.mk.injEq]
      exact ⟨by omega, trivial⟩
    · rw [if_neg h2]
      by_cases h3 : c.toNat < 65536
      · rw [if_pos h3]
        show utf8DecodeOne ((224 + c.toNat / 4096) :: (128 + (c.toNat / 64) % 64) ::
          (128 + c.toNat % 64) :: rest) = _
        simp only [utf8DecodeOne]
        rw [if_neg (by omega), if_neg (by omega), if_neg (by omega), if_pos (by omega)]
        rw [if_pos (by simp only [contByte, Bool.and_eq_true, decide_eq_true_eq]; omega)]
        rw [if_neg (by omega)]
        simp only [Option.some.injEq, Prod.mk.injEq]
        exact ⟨by omega, trivial⟩
      · rw [if_neg h3]
        show utf8DecodeOne ((240 + c.toNat / 262144) :: (128 + (c.toNat / 4096) % 64) ::
          (128 + (c.toNat / 64) % 64) :: (128 + c.toNat % 64) :: rest) = _
        simp only [utf8DecodeOne]
        rw [if_neg (by omega), if_neg (by omega), if_neg (by omega), if_neg (by omega),
          if_pos (by omega)]
        rw [if_pos (by simp only [contByte, Bool.and_eq_true, decide_eq_true_eq]; omega)]
        rw [if_neg (by omega)]
        simp only [Option.some.injEq, Prod.mk.injEq]
        exact ⟨by omega, trivial⟩

theorem utf8EncodeChar_ne_nil (c : Char) : utf8EncodeChar c ≠ [] := by
  unfold utf8EncodeChar
  dsimp only
  split
  · simp
  · split
    · simp
    · split <;> simp

theorem utf8Lenient_bytes (l : List Char) :
    ∀ fuel, (l.flatMap utf8EncodeChar).length ≤ fuel →
      utf8Lenient fuel (l.flatMap utf8EncodeChar) = l := by
  induction l with
  | nil =>
    intro fuel _
    rw [List.flatMap_nil]
    cases fuel <;> rfl
  | cons c cs ih =>
    intro fuel hfuel
    rw [List.flatMap_cons] at hfuel ⊢
    have hne : utf8EncodeChar c ≠ [] := utf8EncodeChar_ne_nil c
    obtain ⟨b, bs, hb⟩ : ∃ b bs, utf8EncodeChar c ++ cs.flatMap utf8EncodeChar = b :: bs := by
      cases he : utf8EncodeChar c with
      | nil => exact absurd he hne
      | cons b bs' => exact ⟨b, bs' ++ cs.flatMap utf8EncodeChar, by simp [he]⟩
    have hlen : 1 ≤ (utf8EncodeChar c).length :=
      List.length_pos_of_ne_nil hne
    obtain ⟨f, rfl⟩ : ∃ f, fuel = f + 1 := by
      refine ⟨fuel - 1, ?_⟩
      rw [List.length_append] at hfuel
      omega
    rw [hb]
    show utf8Lenient (f + 1) (b :: bs) = c :: cs
    unfold utf8Lenient
    rw [← hb, utf8DecodeOne_encode c (cs.flatMap utf8EncodeChar)]
    show Char.ofNat c.toNat :: utf8Lenient f (cs.flatMap utf8EncodeChar) = c :: cs
    rw [Char.ofNat_toNat]
    congr 1
    apply ih
    rw [List.length_append] at hfuel
    omega

/-! ### Base64 (model of `btoa`/`atob` and the URL-safe share variant) -/

/-- Standard base64 alphabet character of a 6-bit value. -/
def b64Char (k : Nat) : Char :=
  if k < 26 then Char.ofNat (65 + k)
  else if k < 52 then Char.ofNat (97 + (k - 26))
  else if k < 62 then Char.ofNat (48 + (k - 52))
  else if k = 62 then '+'
  else '/'

/-- Inverse base64 alphabet lookup (`none` for characters outside it). -/
def b64Val (c : Char) : Option Nat :=
  if 65 ≤ c.toNat ∧ c.toNat ≤ 90 then some (c.toNat - 65)
  else if 97 ≤ c.toNat ∧ c.toNat ≤ 122 then some (c.toNat - 97 + 26)
  else if 48 ≤ c.toNat ∧ c.toNat ≤ 57 then some (c.toNat - 48 + 52)
  else if c = '+' then some 62
  else if c = '/' then some 63
  else none

/-- Model of `btoa` on a byte list: standard base64 with `=` padding. -/
def b64Encode : List Nat → List Char
  | b0 :: b1 :: b2 :: rest =>
    b64Char (b0 / 4) :: b64Char ((b0 % 4) * 16 + b1 / 16) ::
      b64Char ((b1 % 16) * 4 + b2 / 64) :: b64Char (b2 % 64) :: b64Encode rest
  | [b0, b1] =>
    [b64Char (b0 / 4), b64Char ((b0 % 4) * 16 + b1 / 16), b64Char ((b1 % 16) * 4), '=']
  | [b0] => [b64Char (b0 / 4), b64Char ((b0 % 4) * 16), '=', '=']
  | [] => []

/-- The same encoding without the `=` padding characters. -/
def b64EncodeNoPad : List Nat → List Char
  | b0 :: b1 :: b2 :: rest =>
    b64Char (b0 / 4) :: b64Char ((b0 % 4) * 16 + b1 / 16) ::
      b64Char ((b1 % 16) * 4 + b2 / 64) :: b64Char (b2 % 64) :: b64EncodeNoPad rest
  | [b0, b1] =>
    [b64Char (b0 / 4), b64Char ((b0 % 4) * 16 + b1 / 16), b64Char ((b1 % 16) * 4)]
  | [b0] => [b64Char (b0 / 4), b64Char ((b0 % 4) * 16)]
  | [] => []

/-- URL-safe alphabet substitution of the share encoder
(`+` to `-`, `/` to `_`). -/
def swapToUrl (c : Char) : Char :=
  if c = '+' then '-' else if c = '/' then '_' else c

/-- Inverse substitution of `normalizeBase64` (`-` to `+`, `_` to `/`). -/
def swapToStd (c : Char) : Char :=
  if c = '-' then '+' else if c = '_' then '/' else c

/-- Model of `.replace(/=+$/u, "")`: remove the trailing run of `=`. -/
def stripEq (l : List Char) : List Char :=
  (l.reverse.dropWhile (fun c => c = '=')).reverse

/-- Padding restoration of `normalizeBase64`, driven by `length % 4`. -/
def padBase (l : List Char) : List Char :=
  match l.length % 4 with
  | 0 => l
  | 2 => l ++ ['=', '=']
  | 3 => l ++ ['=']
  | _ => l

/-- Model of `normalizeBase64`: translate the URL-safe alphabet back and
restore the stripped padding. -/
def normalizeBase64L (l : List Char) : List Char := padBase (l.map swapToStd)

/-- The padding removal step of forgiving-base64 (`atob`): drop up to two
trailing `=` characters. -/
def stripPad (l : List Char) : List Char :=
  match l.reverse with
  | c1 :: c2 :: r =>
    if c1 = '=' then (if c2 = '=' then r.reverse else (c2 :: r).reverse) else l
  | c1 :: r => if c1 = '=' then r.reverse else l
  | [] => l

/-- Base64 decoding of a padding-free character list: full 4-character
groups, then a final group of 2 or 3 characters; leftover bits are
discarded as in forgiving-base64. -/
def b64DecBody : List Char → Option (List Nat)
  | [] => some []
  | [c0, c1] =>
    (b64Val c0).bind fun s0 => (b64Val c1).bind fun s1 =>
      some [s0 * 4 + s1 / 16]
  | [c0, c1, c2] =>
    (b64Val c0).bind fun s0 => (b64Val c1).bind fun s1 => (b64Val c2).bind fun s2 =>
      some [s0 * 4 + s1 / 16, (s1 % 16) * 16 + s2 / 4]
  | c0 :: c1 :: c2 :: c3 :: rest =>
    (b64Val c0).bind fun s0 => (b64Val c1).bind fun s1 => (b64Val c2).bind fun s2 =>
      (b64Val c3).bind fun s3 => (b64DecBody rest).bind fun bs =>
        some ((s0 * 4 + s1 / 16) :: ((s1 % 16) * 16 + s2 / 4) :: ((s2 % 4) * 64 + s3) :: bs)
  | [_] => none

/-- Model of `atob` (forgiving-base64 decode, without the whitespace
stripping that the inputs here never need): reject length `1 mod 4`,
remove the padding when the length is a multiple of 4, and decode. -/
def atobModel (l : List Char) : Option (List Nat) :=
  if l.length % 4 = 1 then none
  else if l.length % 4 = 0 then b64DecBody (stripPad l)
  else b64DecBody l

/-- Model of `encodeBase64Utf8`: UTF-8 bytes, `btoa`, URL-safe alphabet,
padding stripped. -/
def encodeBase64Utf8 (s : String) : String :=
  String.mk (stripEq ((b64Encode (utf8Bytes s)).map swapToUrl))

/-- Model of `decodeBase64Utf8`: `normalizeBase64`, `atob`, non-fatal
UTF-8 decoding; `none` models the caught exception. -/
def decodeBase64Utf8 (s : String) : Option String :=
  (atobModel (normalizeBase64L s.toList)).map
    (fun bytes => String.mk (utf8Lenient bytes.length bytes))

theorem b64Val_b64Char : ∀ k, k < 64 → b64Val (b64Char k) = some k := by decide

theorem swaps_b64Char : ∀ k, k < 64 → swapToStd (swapToUrl (b64Char k)) = b64Char k := by
  decide

theorem b64Char_ne_pad : ∀ k, k < 64 → b64Char k ≠ '=' := by decide

theorem utf8EncodeChar_lt (c : Char) : ∀ b ∈ utf8EncodeChar c, b < 256 := by
  have hval := char_toNat_valid c
  unfold utf8EncodeChar
  dsimp only
  split
  · next h => intro b hb; simp at hb; omega
  · split
    · next h => intro b hb; simp at hb; rcases hb with rfl | rfl <;> omega
    · split
      · next h =>
        intro b hb
        simp at hb
        have := Nat.mod_lt (c.toNat / 64) (show 0 < 64 by omega)
        rcases hb with rfl | rfl | rfl <;> omega
      · next h =>
        intro b hb
        simp at hb
        have h1 := Nat.mod_lt (c.toNat / 4096) (show 0 < 64 by omega)
        have h2 := Nat.mod_lt (c.toNat / 64) (show 0 < 64 by omega)
        rcases hb with rfl | rfl | rfl | rfl <;> omega

theorem utf8Bytes_lt (s : String) : ∀ b ∈ utf8Bytes s, b < 256 := by
  intro b hb
  obtain ⟨c, _, hc⟩ := List.mem_flatMap.1 hb
  exact utf8EncodeChar_lt c b hc

theorem b64Encode_mem {bytes : List Nat} (hb : ∀ b ∈ bytes, b < 256) :
    ∀ c ∈ b64Encode bytes, c = '=' ∨ ∃ k, k < 64 ∧ c = b64Char k := by
  induction bytes using b64Encode.induct with
  | case1 b0 b1 b2 rest ih =>
    have hb0 := hb b0 (by simp)
    have hb1 := hb b1 (by simp)
    have hb2 := hb b2 (by simp)
    intro c hc
    rw [b64Encode] at hc
    simp only [List.mem_cons] at hc
    rcases hc with rfl | rfl | rfl | rfl | hc
    · exact Or.inr ⟨b0 / 4, by omega, rfl⟩
    · exact Or.inr ⟨(b0 % 4) * 16 + b1 / 16, by omega, rfl⟩
    · exact Or.inr ⟨(b1 % 16) * 4 + b2 / 64, by omega, rfl⟩
    · exact Or.inr ⟨b2 % 64, by omega, rfl⟩
    · exact ih (fun b h => hb b (by simp [h])) c hc
  | case2 b0 b1 =>
    have hb0 := hb b0 (by simp)
    have hb1 := hb b1 (by simp)
    intro c hc
    rw [b64Encode] at hc
    simp only [List.mem_cons, List.not_mem_nil, or_false] at hc
    rcases hc with rfl | rfl | rfl | rfl
    · exact Or.inr ⟨b0 / 4, by omega, rfl⟩
    · exact Or.inr ⟨(b0 % 4) * 16 + b1 / 16, by omega, rfl⟩
    · exact Or.inr ⟨(b1 % 16) * 4, by omega, rfl⟩
    · exact Or.inl rfl
  | case3 b0 =>
    have hb0 := hb b0 (by simp)
    intro c hc
    rw [b64Encode] at hc
    simp only [List.mem_cons, List.not_mem_nil, or_false] at hc
    rcases hc with rfl | rfl | rfl | rfl
    · exact Or.inr ⟨b0 / 4, by omega, rfl⟩
    · exact Or.inr ⟨(b0 % 4) * 16, by omega, rfl⟩
    · exact Or.inl rfl
    · exact Or.inl rfl
  | case4 =>
    intro c hc
    simp [b64Encode] at hc

theorem swapToUrl_eq_pad {c : Char} : swapToUrl c = '=' ↔ c = '=' := by
  unfold swapToUrl
  by_cases h1 : c = '+'
  · subst h1
    rw [if_pos rfl]
    decide
  · rw [if_neg h1]
    by_cases h2 : c = '/'
    · subst h2
      rw [if_pos rfl]
      decide
    · rw [if_neg h2]

theorem stripEq_map_swapUrl (l : List Char) :
    stripEq (l.map swapToUrl) = (stripEq l).map swapToUrl := by
  have hfun : ((fun c => decide (c = '=')) ∘ swapToUrl) = (fun c : Char => decide (c = '=')) := by
    funext c
    exact decide_eq_decide.2 swapToUrl_eq_pad
  unfold stripEq
  rw [← List.map_reverse, List.dropWhile_map, hfun, ← List.map_reverse]

theorem mem_stripEq {l : List Char} {c : Char} (h : c ∈ stripEq l) : c ∈ l := by
  unfold stripEq at h
  rw [List.mem_reverse] at h
  exact List.mem_reverse.1 ((List.dropWhile_sublist _).mem h)

theorem stripEq_append {a b : List Char} (ha : ∀ c ∈ a, c ≠ '=') :
    stripEq (a ++ b) = a ++ stripEq b := by
  unfold stripEq
  rw [List.reverse_append, List.dropWhile_append]
  split
  · next hemp =>
    have hbnil : (b.reverse.dropWhile (fun c => c = '=')) = [] :=
      List.isEmpty_iff.1 hemp
    rw [hbnil, List.reverse_nil, List.append_nil]
    cases har : a.reverse with
    | nil =>
      have : a = [] := by
        have := congrArg List.reverse har
        simpa using this
      simp [this]
    | cons x t =>
      have hx : x ∈ a := by
        rw [← List.mem_reverse, har]
        exact List.mem_cons_self _ _
      rw [List.dropWhile_cons_of_neg (by simpa using ha x hx)]
      rw [← har, List.reverse_reverse]
  · next hemp =>
    rw [List.reverse_append]
    congr 1
    rw [List.reverse_reverse]

theorem stripEq_b64Encode {bytes : List Nat} (hb : ∀ b ∈ bytes, b < 256) :
    stripEq (b64Encode bytes) = b64EncodeNoPad bytes := by
  induction bytes using b64Encode.induct with
  | case1 b0 b1 b2 rest ih =>
    have hb0 := hb b0 (by simp)
    have hb1 := hb b1 (by simp)
    have hb2 := hb b2 (by simp)
    rw [b64Encode, b64EncodeNoPad]
    have hsplit : b64Char (b0 / 4) :: b64Char ((b0 % 4) * 16 + b1 / 16) ::
        b64Char ((b1 % 16) * 4 + b2 / 64) :: b64Char (b2 % 64) :: b64Encode rest =
        [b64Char (b0 / 4), b64Char ((b0 % 4) * 16 + b1 / 16),
          b64Char ((b1 % 16) * 4 + b2 / 64), b64Char (b2 % 64)] ++ b64Encode rest := rfl
    rw [hsplit, stripEq_append, ih (fun b h => hb b (by simp [h]))]
    · rfl
    · intro c hc
      simp only [List.mem_cons, List.not_mem_nil, or_false] at hc
      rcases hc with rfl | rfl | rfl | rfl
      · exact b64Char_ne_pad _ (by omega)
      · exact b64Char_ne_pad _ (by omega)
      · exact b64Char_ne_pad _ (by omega)
      · exact b64Char_ne_pad _ (by omega)
  | case2 b0 b1 =>
    have hb0 := hb b0 (by simp)
    have hb1 := hb b1 (by simp)
    rw [b64Encode, b64EncodeNoPad]
    unfold stripEq
    have hrev : ([b64Char (b0 / 4), b64Char ((b0 % 4) * 16 + b1 / 16),
        b64Char ((b1 % 16) * 4), '=']).reverse =
        '=' :: b64Char ((b1 % 16) * 4) :: b64Char ((b0 % 4) * 16 + b1 / 16) ::
          b64Char (b0 / 4) :: [] := by simp
    rw [hrev, List.dropWhile_cons_of_pos (by simp),
      List.dropWhile_cons_of_neg (by simpa using b64Char_ne_pad _ (by omega : (b1 % 16) * 4 < 64))]
    simp
  | case3 b0 =>
    have hb0 := hb b0 (by simp)
    rw [b64Encode, b64EncodeNoPad]
    unfold stripEq
    have hrev : ([b64Char (b0 / 4), b64Char ((b0 % 4) * 16), '=', '=']).reverse =
        '=' :: '=' :: b64Char ((b0 % 4) * 16) :: b64Char (b0 / 4) :: [] := by simp
    rw [hrev, List.dropWhile_cons_of_pos (by simp), List.dropWhile_cons_of_pos (by simp),
      List.dropWhile_cons_of_neg (by simpa using b64Char_ne_pad _ (by omega : (b0 % 4) * 16 < 64))]
    simp
  | case4 => rfl

theorem b64Encode_len_mod (bytes : List Nat) : (b64Encode bytes).length % 4 = 0 := by
  induction bytes using b64Encode.induct with
  | case1 b0 b1 b2 rest ih =>
    rw [b64Encode]
    simp only [List.length_cons]
    omega
  | case2 b0 b1 => simp [b64Encode]
  | case3 b0 => simp [b64Encode]
  | case4 => rfl

theorem padBase_append4 {a l : List Char} (ha : a.length % 4 = 0) :
    padBase (a ++ l) = a ++ padBase l := by
  unfold padBase
  have hlen : (a ++ l).length % 4 = l.length % 4 := by
    rw [List.length_append]
    omega
  rw [hlen]
  have h4 : l.length % 4 = 0 ∨ l.length % 4 = 1 ∨ l.length % 4 = 2 ∨ l.length % 4 = 3 := by
    omega
  rcases h4 with h | h | h | h <;> rw [h] <;> simp [List.append_assoc]

theorem padBase_noPad {bytes : List Nat} :
    padBase (b64EncodeNoPad bytes) = b64Encode bytes := by
  induction bytes using b64EncodeNoPad.induct with
  | case1 b0 b1 b2 rest ih =>
    rw [b64EncodeNoPad, b64Encode]
    have hsplit : b64Char (b0 / 4) :: b64Char ((b0 % 4) * 16 + b1 / 16) ::
        b64Char ((b1 % 16) * 4 + b2 / 64) :: b64Char (b2 % 64) :: b64EncodeNoPad rest =
        [b64Char (b0 / 4), b64Char ((b0 % 4) * 16 + b1 / 16),
          b64Char ((b1 % 16) * 4 + b2 / 64), b64Char (b2 % 64)] ++ b64EncodeNoPad rest := rfl
    rw [hsplit, padBase_append4 (by simp), ih]
    rfl
  | case2 b0 b1 =>
    rw [b64EncodeNoPad, b64Encode]
    unfold padBase
    rw [show ([b64Char (b0 / 4), b64Char ((b0 % 4) * 16 + b1 / 16),
      b64Char ((b1 % 16) * 4)] : List Char).length % 4 = 3 from rfl]
    rfl
  | case3 b0 =>
    rw [b64EncodeNoPad, b64Encode]
    unfold padBase
    rw [show ([b64Char (b0 / 4), b64Char ((b0 % 4) * 16)] : List Char).length % 4 = 2 from rfl]
    rfl
  | case4 => rfl

theorem stripPad_append {a b : List Char} (hb : 2 ≤ b.length) :
    stripPad (a ++ b) = a ++ stripPad b := by
  obtain ⟨x, y, r, hrev⟩ : ∃ x y r, b.reverse = x :: y :: r := by
    cases hr : b.reverse with
    | nil =>
      have h' := congrArg List.length hr
      rw [List.length_reverse, List.length_nil] at h'
      omega
    | cons x t =>
      cases t with
      | nil =>
        have h' := congrArg List.length hr
        rw [List.length_reverse, List.length_cons, List.length_nil] at h'
        omega
      | cons y r => exact ⟨x, y, r, rfl⟩
  unfold stripPad
  rw [List.reverse_append, hrev]
  show (if x = '=' then (if y = '=' then (r ++ a.reverse).reverse
      else (y :: (r ++ a.reverse)).reverse) else a ++ b) =
    a ++ (if x = '=' then (if y = '=' then r.reverse else (y :: r).reverse) else b)
  by_cases hx : x = '='
  · rw [if_pos hx, if_pos hx]
    by_cases hy : y = '='
    · rw [if_pos hy, if_pos hy, List.reverse_append, List.reverse_reverse]
    · rw [if_neg hy, if_neg hy, List.reverse_cons, List.reverse_cons,
        List.reverse_append, List.reverse_reverse, List.append_assoc]
  · rw [if_neg hx, if_neg hx]

theorem stripPad_b64Encode {bytes : List Nat} (hb : ∀ b ∈ bytes, b < 256) :
    stripPad (b64Encode bytes) = b64EncodeNoPad bytes := by
  induction bytes using b64Encode.induct with
  | case1 b0 b1 b2 rest ih =>
    rw [b64Encode, b64EncodeNoPad]
    cases hrest : rest with
    | nil =>
      have hne : b64Char (b2 % 64) ≠ '=' :=
        b64Char_ne_pad _ (by have := Nat.mod_lt b2 (show 0 < 64 by omega); omega)
      unfold stripPad
      rw [show (b64Char (b0 / 4) :: b64Char ((b0 % 4) * 16 + b1 / 16) ::
        b64Char ((b1 % 16) * 4 + b2 / 64) :: b64Char (b2 % 64) :: b64Encode []).reverse =
        b64Char (b2 % 64) :: b64Char ((b1 % 16) * 4 + b2 / 64) ::
          [b64Char ((b0 % 4) * 16 + b1 / 16), b64Char (b0 / 4)] from by simp [b64Encode]]
      show (if b64Char (b2 % 64) = '=' then _ else _) = _
      rw [if_neg hne]
      simp [b64Encode, b64EncodeNoPad]
    | cons rb rrest =>
      rw [← hrest]
      have hsplit : b64Char (b0 / 4) :: b64Char ((b0 % 4) * 16 + b1 / 16) ::
          b64Char ((b1 % 16) * 4 + b2 / 64) :: b64Char (b2 % 64) :: b64Encode rest =
          [b64Char (b0 / 4), b64Char ((b0 % 4) * 16 + b1 / 16),
            b64Char ((b1 % 16) * 4 + b2 / 64), b64Char (b2 % 64)] ++ b64Encode rest := rfl
      have hlen : 2 ≤ (b64Encode rest).length := by
        rw [hrest]
        cases rrest with
        | nil => simp [b64Encode]
        | cons rb2 rrest2 =>
          cases rrest2 with
          | nil => simp [b64Encode]
          | cons rb3 rrest3 => simp [b64Encode]
      rw [hsplit, stripPad_append hlen, ih (fun b h => hb b (by simp [h]))]
      rfl
  | case2 b0 b1 =>
    have hne : b64Char ((b1 % 16) * 4) ≠ '=' := b64Char_ne_pad _ (by omega)
    rw [b64Encode, b64EncodeNoPad]
    unfold stripPad
    rw [show ([b64Char (b0 / 4), b64Char ((b0 % 4) * 16 + b1 / 16),
      b64Char ((b1 % 16) * 4), '='] : List Char).reverse =
      '=' :: b64Char ((b1 % 16) * 4) ::
        [b64Char ((b0 % 4) * 16 + b1 / 16), b64Char (b0 / 4)] from by simp]
    show (if '=' = '=' then (if b64Char ((b1 % 16) * 4) = '=' then _ else _) else _) = _
    rw [if_pos rfl, if_neg hne]
    simp
  | case3 b0 =>
    rw [b64Encode, b64EncodeNoPad]
    unfold stripPad
    rw [show ([b64Char (b0 / 4), b64Char ((b0 % 4) * 16), '=', '='] : List Char).reverse =
      '=' :: '=' :: [b64Char ((b0 % 4) * 16), b64Char (b0 / 4)] from by simp]
    show (if '=' = '=' then (if '=' = '=' then _ else _) else _) = _
    rw [if_pos rfl, if_pos rfl]
    simp
  | case4 => rfl

theorem b64DecBody_noPad {bytes : List Nat} (hb : ∀ b ∈ bytes, b < 256) :
    b64DecBody (b64EncodeNoPad bytes) = some bytes := by
  induction bytes using b64EncodeNoPad.induct with
  | case1 b0 b1 b2 rest ih =>
    have hb0 := hb b0 (by simp)
    have hb1 := hb b1 (by simp)
    have hb2 := hb b2 (by simp)
    rw [b64EncodeNoPad]
    simp only [b64DecBody]
    rw [b64Val_b64Char _ (by omega), b64Val_b64Char _ (by omega),
      b64Val_b64Char _ (by omega), b64Val_b64Char _ (by omega),
      ih (fun b h => hb b (by simp [h]))]
    simp only [Option.some_bind, Option.some.injEq]
    congr 1
    · omega
    congr 1
    · omega
    congr 1
    omega
  | case2 b0 b1 =>
    have hb0 := hb b0 (by simp)
    have hb1 := hb b1 (by simp)
    rw [b64EncodeNoPad]
    simp only [b64DecBody]
    rw [b64Val_b64Char _ (by omega), b64Val_b64Char _ (by omega),
      b64Val_b64Char _ (by omega)]
    simp only [Option.some_bind, Option.some.injEq]
    congr 1
    · omega
    congr 1
    omega
  | case3 b0 =>
    have hb0 := hb b0 (by simp)
    rw [b64EncodeNoPad]
    simp only [b64DecBody]
    rw [b64Val_b64Char _ (by omega), b64Val_b64Char _ (by omega)]
    simp only [Option.some_bind, Option.some.injEq]
    congr 1
    omega
  | case4 => rfl

/-- Round trip of the share codec below JSON: URL-safe unpadded base64 of
the UTF-8 bytes decodes back to the same string. -/
theorem decodeBase64Utf8_encodeBase64Utf8 (s : String) :
    decodeBase64Utf8 (encodeBase64Utf8 s) = some s := by
  have hb := utf8Bytes_lt s
  unfold decodeBase64Utf8 encodeBase64Utf8
  have h1 : (String.mk (stripEq ((b64Encode (utf8Bytes s)).map swapToUrl))).toList
      = stripEq ((b64Encode (utf8Bytes s)).map swapToUrl) := rfl
  rw [h1]
  have h2 : normalizeBase64L (stripEq ((b64Encode (utf8Bytes s)).map swapToUrl))
      = b64Encode (utf8Bytes s) := by
    unfold normalizeBase64L
    rw [stripEq_map_swapUrl, List.map_map]
    have hid : (stripEq (b64Encode (utf8Bytes s))).map (swapToStd ∘ swapToUrl)
        = stripEq (b64Encode (utf8Bytes s)) := by
      have := List.map_congr_left (l := stripEq (b64Encode (utf8Bytes s)))
        (f := swapToStd ∘ swapToUrl) (g := id) ?_
      · rw [this, List.map_id]
      · intro c hc
        have hmem := mem_stripEq hc
        rcases b64Encode_mem hb c hmem with rfl | ⟨k, hk, rfl⟩
        · rfl
        · exact swaps_b64Char k hk
    rw [hid, stripEq_b64Encode hb, padBase_noPad]
  rw [h2]
  unfold atobModel
  rw [if_neg (by rw [b64Encode_len_mod]; omega), if_pos (b64Encode_len_mod _)]
  rw [stripPad_b64Encode hb, b64DecBody_noPad hb]
  simp only [Option.map_some', Option.some.injEq]
  have h3 : utf8Lenient (utf8Bytes s).length (utf8Bytes s) = s.toList :=
    utf8Lenient_bytes s.toList (utf8Bytes s).length (le_refl _)
  rw [h3]
  rfl

/-! ### JSON parsing (model of `JSON.parse`) -/

/-- JSON whitespace. -/
def isWsChar (c : Char) : Bool := c = ' ' || c = '\t' || c = '\n' || c = '\r'

/-- Skip leading JSON whitespace. -/
def skipWs (l : List Char) : List Char := l.dropWhile isWsChar

/-- ASCII digit test. -/
def isDigitCh (c : Char) : Bool := 48 ≤ c.toNat && c.toNat ≤ 57

/-- Parse a JSON unsigned-integer literal: a digit run with no leading
zero; fractional and exponent forms are rejected (numbers are modelled as
integers). -/
def parseNatNum (cs : List Char) : Option (Nat × List Char) :=
  let ds := cs.takeWhile isDigitCh
  let rest := cs.dropWhile isDigitCh
  if ds = [] then none
  else if 1 < ds.length ∧ ds.head? = some '0' then none
  else
    match rest with
    | c :: _ => if c = '.' ∨ c = 'e' ∨ c = 'E' then none else some (digitsVal ds, rest)
    | [] => some (digitsVal ds, [])

/-- Hexadecimal digit value. -/
def hexVal (c : Char) : Option Nat :=
  if 48 ≤ c.toNat ∧ c.toNat ≤ 57 then some (c.toNat - 48)
  else if 97 ≤ c.toNat ∧ c.toNat ≤ 102 then some (c.toNat - 97 + 10)
  else if 65 ≤ c.toNat ∧ c.toNat ≤ 70 then some (c.toNat - 65 + 10)
  else none

/-- Parse the body of a JSON string literal after the opening quote,
accumulating decoded characters in reverse.  Surrogate `\uXXXX` escapes
are not modelled (Lean characters are Unicode scalar values). -/
def parseStrAux : Nat → List Char → List Char → Option (String × List Char)
  | 0, _, _ => none
  | _ + 1, acc, [] => none
  | fuel + 1, acc, c :: rest =>
    if c = '"' then some (String.mk acc.reverse, rest)
    else if c = '\\' then
      match rest with
      | [] => none
      | e :: rest2 =>
        if e = '"' then parseStrAux fuel ('"' :: acc) rest2
        else if e = '\\' then parseStrAux fuel ('\\' :: acc) rest2
        else if e = '/' then parseStrAux fuel ('/' :: acc) rest2
        else if e = 'b' then parseStrAux fuel (Char.ofNat 8 :: acc) rest2
        else if e = 'f' then parseStrAux fuel (Char.ofNat 12 :: acc) rest2
        else if e = 'n' then parseStrAux fuel (Char.ofNat 10 :: acc) rest2
        else if e = 'r' then parseStrAux fuel (Char.ofNat 13 :: acc) rest2
        else if e = 't' then parseStrAux fuel (Char.ofNat 9 :: acc) rest2
        else if e = 'u' then
          match rest2 with
          | h1 :: h2 :: h3 :: h4 :: rest3 =>
            match hexVal h1, hexVal h2, hexVal h3, hexVal h4 with
            | some v1, some v2, some v3, some v4 =>
              let n := v1 * 4096 + v2 * 256 + v3 * 16 + v4
              if 55296 ≤ n ∧ n < 57344 then none
              else parseStrAux fuel (Char.ofNat n :: acc) rest3
            | _, _, _, _ => none
          | _ => none
        else none
    else if c.toNat < 32 then none
    else parseStrAux fuel (c :: acc) rest

/-- Parse a JSON string literal body (fuel: one unit per character). -/
def parseStr (cs : List Char) : Option (String × List Char) :=
  parseStrAux (cs.length + 1) [] cs

mutual

/-- Fuel-driven recursive-descent parser for a JSON value (whitespace
before the value already skipped). -/
def parseVal : Nat → List Char → Option (JsonValue × List Char)
  | 0, _ => none
  | fuel + 1, cs =>
    match cs with
    | [] => none
    | c :: rest =>
      if isDigitCh c then
        (parseNatNum (c :: rest)).map (fun r => (JsonValue.num (Int.ofNat r.1), r.2))
      else if c = '-' then
        (parseNatNum rest).map (fun r => (JsonValue.num (-(Int.ofNat r.1)), r.2))
      else if c = '"' then
        (parseStr rest).map (fun r => (JsonValue.str r.1, r.2))
      else if c = '[' then
        match skipWs rest with
        | [] => none
        | d :: r2 =>
          if d = ']' then some (JsonValue.arr [], r2)
          else (parseItems fuel (d :: r2)).map (fun r => (JsonValue.arr r.1, r.2))
      else if c = '{' then
        match skipWs rest with
        | [] => none
        | d :: r2 =>
          if d = '}' then some (JsonValue.obj [], r2)
          else (parseFieldsP fuel (d :: r2)).map (fun r => (JsonValue.obj r.1, r.2))
      else if c = 'n' then
        match rest with
        | 'u' :: 'l' :: 'l' :: r => some (JsonValue.null, r)
        | _ => none
      else if c = 't' then
        match rest with
        | 'r' :: 'u' :: 'e' :: r => some (JsonValue.bool true, r)
        | _ => none
      else if c = 'f' then
        match rest with
        | 'a' :: 'l' :: 's' :: 'e' :: r => some (JsonValue.bool false, r)
        | _ => none
      else none

/-- Parse one or more comma-separated array items up to `]`. -/
def parseItems : Nat → List Char → Option (List JsonValue × List Char)
  | 0, _ => none
  | fuel + 1, cs =>
    (parseVal fuel cs).bind fun r =>
      match skipWs r.2 with
      | [] => none
      | d :: r2 =>
        if d = ',' then
          (parseItems fuel (skipWs r2)).map (fun r3 => (r.1 :: r3.1, r3.2))
        else if d = ']' then some ([r.1], r2)
        else none

/-- Parse one or more comma-separated object members up to the closing
brace. -/
def parseFieldsP : Nat → List Char → Option (List (String × JsonValue) × List Char)
  | 0, _ => none
  | fuel + 1, cs =>
    match cs with
    | [] => none
    | c :: rest =>
      if c = '"' then
        (parseStr rest).bind fun rk =>
          match skipWs rk.2 with
          | [] => none
          | d :: r2 =>
            if d = ':' then
              (parseVal fuel (skipWs r2)).bind fun rv =>
                match skipWs rv.2 with
                | [] => none
                | d2 :: r3 =>
                  if d2 = ',' then
                    (parseFieldsP fuel (skipWs r3)).map
                      (fun rr => ((rk.1, rv.1) :: rr.1, rr.2))
                  else if d2 = '}' then some ([(rk.1, rv.1)], r3)
                  else none
            else none
      else none

end

/-- Model of `JSON.parse` on a whole text: skip whitespace, parse one
value, require only whitespace afterwards. -/
def parseJsonText (text : String) : Option JsonValue :=
  let cs := skipWs text.toList
  match parseVal (cs.length + 1) cs with
  | some (v, rest) => if skipWs rest = [] then some v else none
  | none => none

/-- Model of the `parseJson` wrapper of the source: a caught `JSON.parse`
exception becomes an error result. -/
def parseJson (text : String) : Except String JsonValue :=
  match parseJsonText text with
  | some v => Except.ok v
  | none => Except.error "JSON parse failed"

/-! ### Round trip: `JSON.parse` of `JSON.stringify` -/

mutual

/-- Syntactic node count, a fuel bound for the parser. -/
def sizeJ : JsonValue → Nat
  | JsonValue.arr items => 1 + sizeItems items
  | JsonValue.obj fields => 1 + sizeFields fields
  | _ => 1

/-- Fuel bound for an item list. -/
def sizeItems : List JsonValue → Nat
  | [] => 0
  | x :: xs => 1 + sizeJ x + sizeItems xs

/-- Fuel bound for a member list. -/
def sizeFields : List (String × JsonValue) → Nat
  | [] => 0
  | f :: fs => 1 + sizeJ f.2 + sizeFields fs

end

/-- The character that may legally follow a serialized value in the
contexts the serializer produces: end of input, a separator, or a
closing bracket. -/
def delimOk (rest : List Char) : Prop :=
  rest = [] ∨ ∃ d t, rest = d :: t ∧ (d = ',' ∨ d = ']' ∨ d = '}')

theorem takeWhile_all_append {p : Char → Bool} {a b : List Char}
    (ha : ∀ x ∈ a, p x = true)
    (hb : b = [] ∨ ∃ c t, b = c :: t ∧ p c = false) :
    (a ++ b).takeWhile p = a ∧ (a ++ b).dropWhile p = b := by
  induction a with
  | nil =>
    simp only [List.nil_append]
    rcases hb with rfl | ⟨c, t, rfl, hc⟩
    · exact ⟨rfl, rfl⟩
    · exact ⟨List.takeWhile_cons_of_neg (by simp [hc]),
        List.dropWhile_cons_of_neg (by simp [hc])⟩
  | cons x a ih =>
    have hx := ha x (List.mem_cons_self _ _)
    obtain ⟨h1, h2⟩ := ih (fun y hy => ha y (List.mem_cons_of_mem _ hy))
    constructor
    · rw [List.cons_append, List.takeWhile_cons_of_pos (by simp [hx]), h1]
    · rw [List.cons_append, List.dropWhile_cons_of_pos (by simp [hx]), h2]

theorem natDigits_isDigit {n : Nat} : ∀ c ∈ natDigits n, isDigitCh c = true := by
  intro c hc
  have := natDigits_mem_digit hc
  simp only [isDigitCh, Bool.and_eq_true, decide_eq_true_eq]
  omega

theorem delim_not_digit {rest : List Char} (h : delimOk rest) :
    rest = [] ∨ ∃ c t, rest = c :: t ∧ isDigitCh c = false := by
  rcases h with rfl | ⟨d, t, rfl, hd⟩
  · exact Or.inl rfl
  · refine Or.inr ⟨d, t, rfl, ?_⟩
    rcases hd with rfl | rfl | rfl <;> decide

theorem parseNatNum_natDigits (n : Nat) {rest : List Char} (hrest : delimOk rest) :
    parseNatNum (natDigits n ++ rest) = some (n, rest) := by
  obtain ⟨htake, hdrop⟩ :=
    takeWhile_all_append (p := isDigitCh) natDigits_isDigit (delim_not_digit hrest)
  unfold parseNatNum
  rw [htake, hdrop]
  rw [if_neg (by simp [natDigits_ne_nil n])]
  rw [if_neg ?hlead]
  case hlead =>
    rintro ⟨hlen, hhead⟩
    rcases Nat.lt_or_ge n 10 with h10 | h10
    · rw [natDigits_unfold, if_pos h10] at hlen
      simp at hlen
    · exact natDigits_head_ne_zero (by omega) hhead
  rcases hrest with rfl | ⟨d, t, rfl, hd⟩
  · rw [digitsVal_natDigits]
  · have hne : ¬(d = '.' ∨ d = 'e' ∨ d = 'E') := by
      rcases hd with rfl | rfl | rfl <;> decide
    show (if d = '.' ∨ d = 'e' ∨ d = 'E' then none
      else some (digitsVal (natDigits n), d :: t)) = some (n, d :: t)
    rw [if_neg hne, digitsVal_natDigits]

theorem hexVal_hexDigit : ∀ k, k < 16 → hexVal (hexDigit k) = some k := by decide

theorem escJson_length_ge (s : List Char) : s.length ≤ (escJson s).length := by
  induction s with
  | nil => simp [escJson]
  | cons c cs ih =>
    rw [show escJson (c :: cs) = escJsonChar c ++ escJson cs from rfl, List.length_append]
    have : 1 ≤ (escJsonChar c).length := by
      unfold escJsonChar
      split
      · simp
      · split
        · simp
        · split
          · simp
          · split
            · simp
            · split
              · simp
              · split
                · simp
                · split
                  · simp
                  · split <;> simp
    simp only [List.length_cons]
    omega

theorem parseStrAux_quote (f : Nat) (acc rest : List Char) :
    parseStrAux (f + 1) acc ('"' :: rest) = some (String.mk acc.reverse, rest) := by
  simp [parseStrAux]

theorem parseStrAux_escQuote (f : Nat) (acc rest : List Char) :
    parseStrAux (f + 1) acc ('\\' :: '"' :: rest) = parseStrAux f ('"' :: acc) rest := by
  simp [parseStrAux]

theorem parseStrAux_escBackslash (f : Nat) (acc rest : List Char) :
    parseStrAux (f + 1) acc ('\\' :: '\\' :: rest) = parseStrAux f ('\\' :: acc) rest := by
  simp [parseStrAux]

theorem parseStrAux_escB (f : Nat) (acc rest : List Char) :
    parseStrAux (f + 1) acc ('\\' :: 'b' :: rest) =
      parseStrAux f (Char.ofNat 8 :: acc) rest := by
  simp [parseStrAux]

theorem parseStrAux_escF (f : Nat) (acc rest : List Char) :
    parseStrAux (f + 1) acc ('\\' :: 'f' :: rest) =
      parseStrAux f (Char.ofNat 12 :: acc) rest := by
  simp [parseStrAux]

theorem parseStrAux_escN (f : Nat) (acc rest : List Char) :
    parseStrAux (f + 1) acc ('\\' :: 'n' :: rest) =
      parseStrAux f (Char.ofNat 10 :: acc) rest := by
  simp [parseStrAux]

theorem parseStrAux_escR (f : Nat) (acc rest : List Char) :
    parseStrAux (f + 1) acc ('\\' :: 'r' :: rest) =
      parseStrAux f (Char.ofNat 13 :: acc) rest := by
  simp [parseStrAux]

theorem parseStrAux_escT (f : Nat) (acc rest : List Char) :
    parseStrAux (f + 1) acc ('\\' :: 't' :: rest) =
      parseStrAux f (Char.ofNat 9 :: acc) rest := by
  simp [parseStrAux]

theorem parseStrAux_escU (f : Nat) (acc rest : List Char) (a b : Nat)
    (ha : a < 16) (hb : b < 16) (hn : a * 16 + b < 55296) :
    parseStrAux (f + 1) acc
        ('\\' :: 'u' :: '0' :: '0' :: hexDigit a :: hexDigit b :: rest) =
      parseStrAux f (Char.ofNat (a * 16 + b) :: acc) rest := by
  have h0 : hexVal '0' = some 0 := by decide
  simp only [parseStrAux, h0, hexVal_hexDigit a ha, hexVal_hexDigit b hb]
  norm_num
  rw [if_neg (show ¬('u' : Char) = '"' from by decide),
    if_neg (show ¬('u' : Char) = '\\' from by decide),
    if_neg (show ¬('u' : Char) = '/' from by decide),
    if_neg (show ¬('u' : Char) = 'b' from by decide),
    if_neg (show ¬('u' : Char) = 'f' from by decide),
    if_neg (show ¬('u' : Char) = 'n' from by decide),
    if_neg (show ¬('u' : Char) = 'r' from by decide),
    if_neg (show ¬('u' : Char) = 't' from by decide),
    if_neg (by omega : ¬(55296 ≤ a * 16 + b ∧ a * 16 + b < 57344))]
  rw [if_neg (show ¬('\\' : Char) = '"' from by decide)]

theorem parseStrAux_step_plain (f : Nat) (acc rest : List Char) (c : Char)
    (h1 : c ≠ '"') (h2 : c ≠ '\\') (h3 : ¬c.toNat < 32) :
    parseStrAux (f + 1) acc (c :: rest) = parseStrAux f (c :: acc) rest := by
  simp only [parseStrAux]
  rw [if_neg h1, if_neg h2, if_neg h3]

theorem parseStrAux_escJson (s : List Char) :
    ∀ fuel acc rest, s.length < fuel →
      parseStrAux fuel acc (escJson s ++ '"' :: rest) =
        some (String.mk (acc.reverse ++ s), rest) := by
  induction s with
  | nil =>
    intro fuel acc rest hf
    obtain ⟨f, rfl⟩ : ∃ f, fuel = f + 1 := ⟨fuel - 1, by omega⟩
    show parseStrAux (f + 1) acc ([] ++ '"' :: rest) = _
    rw [List.nil_append, parseStrAux_quote]
    simp
  | cons c s ih =>
    intro fuel acc rest hf
    obtain ⟨f, rfl⟩ : ∃ f, fuel = f + 1 := ⟨fuel - 1, by omega⟩
    have hs : s.length < f := by
      simp only [List.length_cons] at hf; omega
    have hmain : ∀ acc', parseStrAux f acc' (escJson s ++ '"' :: rest) =
        some (String.mk (acc'.reverse ++ s), rest) := fun acc' => ih f acc' rest hs
    show parseStrAux (f + 1) acc ((escJsonChar c ++ escJson s) ++ '"' :: rest) = _
    rw [List.append_assoc]
    unfold escJsonChar
    by_cases h1 : c = '"'
    · subst h1
      rw [if_pos rfl]
      show parseStrAux (f + 1) acc ('\\' :: '"' :: (escJson s ++ '"' :: rest)) = _
      rw [parseStrAux_escQuote, hmain]
      simp
    rw [if_neg h1]
    by_cases h2 : c = '\\'
    · subst h2
      rw [if_pos rfl]
      show parseStrAux (f + 1) acc ('\\' :: '\\' :: (escJson s ++ '"' :: rest)) = _
      rw [parseStrAux_escBackslash, hmain]
      simp
    rw [if_neg h2]
    by_cases h3 : c.toNat = 8
    · rw [if_pos h3]
      show parseStrAux (f + 1) acc ('\\' :: 'b' :: (escJson s ++ '"' :: rest)) = _
      have hc : Char.ofNat 8 = c := by rw [← h3]; exact Char.ofNat_toNat c
      rw [parseStrAux_escB, hc, hmain]
      simp
    rw [if_neg h3]
    by_cases h4 : c.toNat = 12
    · rw [if_pos h4]
      show parseStrAux (f + 1) acc ('\\' :: 'f' :: (escJson s ++ '"' :: rest)) = _
      have hc : Char.ofNat 12 = c := by rw [← h4]; exact Char.ofNat_toNat c
      rw [parseStrAux_escF, hc, hmain]
      simp
    rw [if_neg h4]
    by_cases h5 : c.toNat = 10
    · rw [if_pos h5]
      show parseStrAux (f + 1) acc ('\\' :: 'n' :: (escJson s ++ '"' :: rest)) = _
      have hc : Char.ofNat 10 = c := by rw [← h5]; exact Char.ofNat_toNat c
      rw [parseStrAux_escN, hc, hmain]
      simp
    rw [if_neg h5]
    by_cases h6 : c.toNat = 13
    · rw [if_pos h6]
      show parseStrAux (f + 1) acc ('\\' :: 'r' :: (escJson s ++ '"' :: rest)) = _
      have hc : Char.ofNat 13 = c := by rw [← h6]; exact Char.ofNat_toNat c
      rw [parseStrAux_escR, hc, hmain]
      simp
    rw [if_neg h6]
    by_cases h7 : c.toNat = 9
    · rw [if_pos h7]
      show parseStrAux (f + 1) acc ('\\' :: 't' :: (escJson s ++ '"' :: rest)) = _
      have hc : Char.ofNat 9 = c := by rw [← h7]; exact Char.ofNat_toNat c
      rw [parseStrAux_escT, hc, hmain]
      simp
    rw [if_neg h7]
    by_cases h8 : c.toNat < 32
    · rw [if_pos h8]
      show parseStrAux (f + 1) acc
          ('\\' :: 'u' :: '0' :: '0' :: hexDigit (c.toNat / 16) ::
            hexDigit (c.toNat % 16) :: (escJson s ++ '"' :: rest)) = _
      rw [parseStrAux_escU f _ _ _ _ (by omega) (by omega) (by omega)]
      have hc : Char.ofNat (c.toNat / 16 * 16 + c.toNat % 16) = c := by
        rw [show c.toNat / 16 * 16 + c.toNat % 16 = c.toNat from by omega]
        exact Char.ofNat_toNat c
      rw [hc, hmain]
      simp
    rw [if_neg h8]
    show parseStrAux (f + 1) acc (c :: (escJson s ++ '"' :: rest)) = _
    rw [parseStrAux_step_plain f _ _ c h1 h2 h8, hmain]
    simp

theorem sizeJ_pos (v : JsonValue) : 1 ≤ sizeJ v := by
  cases v <;> simp [sizeJ]

theorem skipWs_cons {c : Char} (h : isWsChar c = false) (t : List Char) :
    skipWs (c :: t) = c :: t :=
  List.dropWhile_cons_of_neg (by simp [h])

theorem digit_head_facts {c : Char} (h48 : 48 ≤ c.toNat) (h57 : c.toNat ≤ 57) :
    isWsChar c = false ∧ c ≠ ']' ∧ c ≠ '}' := by
  refine ⟨?_, ?_, ?_⟩
  · simp only [isWsChar, Bool.or_eq_false_iff, decide_eq_false_iff_not]
    refine ⟨⟨⟨?_, ?_⟩, ?_⟩, ?_⟩ <;> (rintro rfl; revert h48 h57; decide)
  · rintro rfl; revert h48 h57; decide
  · rintro rfl; revert h48 h57; decide

theorem stringifyL_head (v : JsonValue) :
    ∃ c t, stringifyL v = c :: t ∧ isWsChar c = false ∧ c ≠ ']' ∧ c ≠ '}' := by
  cases v with
  | null => exact ⟨'n', _, rfl, by decide, by decide, by decide⟩
  | bool b =>
    cases b
    · exact ⟨'f', _, rfl, by decide, by decide, by decide⟩
    · exact ⟨'t', _, rfl, by decide, by decide, by decide⟩
  | str s =>
    exact ⟨'"', _, rfl, by decide, by decide, by decide⟩
  | num i =>
    cases i with
    | ofNat n =>
      obtain ⟨c, t, hct⟩ := List.exists_cons_of_ne_nil (natDigits_ne_nil n)
      have hd := natDigits_mem_digit (show c ∈ natDigits n by
        rw [hct]; exact List.mem_cons_self _ _)
      obtain ⟨hw, h1, h2⟩ := digit_head_facts hd.1 hd.2
      refine ⟨c, t, ?_, hw, h1, h2⟩
      simp only [stringifyL, intDigits]
      exact hct
    | negSucc n =>
      refine ⟨'-', natDigits (n + 1), ?_, by decide, by decide, by decide⟩
      simp only [stringifyL, intDigits]
  | arr items =>
    cases items with
    | nil => exact ⟨'[', [']'], by simp only [stringifyL], by decide, by decide, by decide⟩
    | cons x xs =>
      exact ⟨'[', stringifyL x ++ stringifyMoreItems xs ++ [']'],
        by simp only [stringifyL], by decide, by decide, by decide⟩
  | obj fields =>
    cases fields with
    | nil => exact ⟨'{', ['}'], by simp only [stringifyL], by decide, by decide, by decide⟩
    | cons f fs =>
      exact ⟨'{', stringifyField f ++ stringifyMoreFields fs ++ ['}'],
        by simp only [stringifyL], by decide, by decide, by decide⟩

theorem skipWs_stringify (v : JsonValue) (r : List Char) :
    skipWs (stringifyL v ++ r) = stringifyL v ++ r := by
  obtain ⟨c, t, hct, hw, -, -⟩ := stringifyL_head v
  rw [hct, List.cons_append, skipWs_cons hw]

theorem parseVal_null (fuel : Nat) (rest : List Char) :
    parseVal (fuel + 1) ('n' :: 'u' :: 'l' :: 'l' :: rest) =
      some (JsonValue.null, rest) := by
  have h : ¬isDigitCh 'n' = true := by decide
  simp [parseVal, h]

theorem parseVal_true (fuel : Nat) (rest : List Char) :
    parseVal (fuel + 1) ('t' :: 'r' :: 'u' :: 'e' :: rest) =
      some (JsonValue.bool true, rest) := by
  have h : ¬isDigitCh 't' = true := by decide
  simp [parseVal, h]

theorem parseVal_false (fuel : Nat) (rest : List Char) :
    parseVal (fuel + 1) ('f' :: 'a' :: 'l' :: 's' :: 'e' :: rest) =
      some (JsonValue.bool false, rest) := by
  have h : ¬isDigitCh 'f' = true := by decide
  simp [parseVal, h]

theorem parseVal_digit (fuel : Nat) (c : Char) (t : List Char) (h : isDigitCh c = true) :
    parseVal (fuel + 1) (c :: t) =
      (parseNatNum (c :: t)).map (fun r => (JsonValue.num (Int.ofNat r.1), r.2)) := by
  simp only [parseVal]
  rw [if_pos h]

theorem parseVal_neg (fuel : Nat) (t : List Char) :
    parseVal (fuel + 1) ('-' :: t) =
      (parseNatNum t).map (fun r => (JsonValue.num (-(Int.ofNat r.1)), r.2)) := by
  have h : ¬isDigitCh '-' = true := by decide
  simp [parseVal, h]

theorem parseVal_quote (fuel : Nat) (t : List Char) :
    parseVal (fuel + 1) ('"' :: t) =
      (parseStr t).map (fun r => (JsonValue.str r.1, r.2)) := by
  have h : ¬isDigitCh '"' = true := by decide
  simp [parseVal, h]

theorem parseVal_arr_nil (fuel : Nat) (r2 : List Char) (t : List Char)
    (hsk : skipWs t = ']' :: r2) :
    parseVal (fuel + 1) ('[' :: t) = some (JsonValue.arr [], r2) := by
  have h : ¬isDigitCh '[' = true := by decide
  simp [parseVal, h, hsk]

theorem parseVal_arr_cons (fuel : Nat) (d : Char) (r2 t : List Char)
    (hsk : skipWs t = d :: r2) (hne : d ≠ ']') :
    parseVal (fuel + 1) ('[' :: t) =
      (parseItems fuel (d :: r2)).map (fun r => (JsonValue.arr r.1, r.2)) := by
  have h : ¬isDigitCh '[' = true := by decide
  simp [parseVal, h, hsk, hne]

theorem parseVal_obj_nil (fuel : Nat) (r2 : List Char) (t : List Char)
    (hsk : skipWs t = '}' :: r2) :
    parseVal (fuel + 1) ('{' :: t) = some (JsonValue.obj [], r2) := by
  have h : ¬isDigitCh '{' = true := by decide
  simp [parseVal, h, hsk]

theorem parseVal_obj_cons (fuel : Nat) (d : Char) (r2 t : List Char)
    (hsk : skipWs t = d :: r2) (hne : d ≠ '}') :
    parseVal (fuel + 1) ('{' :: t) =
      (parseFieldsP fuel (d :: r2)).map (fun r => (JsonValue.obj r.1, r.2)) := by
  have h : ¬isDigitCh '{' = true := by decide
  simp [parseVal, h, hsk, hne]

theorem parseItems_unfold_end (fuel : Nat) (cs r2 : List Char) (v : JsonValue)
    (hv : parseVal fuel cs = some (v, ']' :: r2)) :
    parseItems (fuel + 1) cs = some ([v], r2) := by
  simp [parseItems, hv, skipWs_cons, isWsChar]

theorem parseItems_unfold_comma (fuel : Nat) (cs r2 : List Char) (v : JsonValue)
    (hv : parseVal fuel cs = some (v, ',' :: r2)) :
    parseItems (fuel + 1) cs =
      (parseItems fuel (skipWs r2)).map (fun r3 => (v :: r3.1, r3.2)) := by
  simp [parseItems, hv, skipWs_cons, isWsChar]

theorem parseFieldsP_unfold_end (fuel : Nat) (body r3 : List Char) (k : String)
    (v : JsonValue)
    (hk : parseStr body = some (k, ':' :: (stringifyL v ++ '}' :: r3)))
    (hv : parseVal fuel (stringifyL v ++ '}' :: r3) = some (v, '}' :: r3)) :
    parseFieldsP (fuel + 1) ('"' :: body) = some ([(k, v)], r3) := by
  simp [parseFieldsP, hk, hv, skipWs_stringify, skipWs_cons, isWsChar]

theorem parseFieldsP_unfold_comma (fuel : Nat) (body r3 : List Char) (k : String)
    (v : JsonValue)
    (hk : parseStr body = some (k, ':' :: (stringifyL v ++ ',' :: r3)))
    (hv : parseVal fuel (stringifyL v ++ ',' :: r3) = some (v, ',' :: r3)) :
    parseFieldsP (fuel + 1) ('"' :: body) =
      (parseFieldsP fuel (skipWs r3)).map (fun rr => ((k, v) :: rr.1, rr.2)) := by
  simp [parseFieldsP, hk, hv, skipWs_stringify, skipWs_cons, isWsChar]

theorem parseStr_escJson (k : List Char) (rest : List Char) :
    parseStr (escJson k ++ '"' :: rest) = some (String.mk k, rest) := by
  unfold parseStr
  have hlen : k.length < (escJson k ++ '"' :: rest).length + 1 := by
    have := escJson_length_ge k
    simp only [List.length_append, List.length_cons]
    omega
  rw [parseStrAux_escJson k _ [] rest hlen]
  simp

mutual

theorem parseVal_stringify (fuel : Nat) (v : JsonValue) (rest : List Char)
    (hsz : sizeJ v ≤ fuel) (hrest : delimOk rest) :
    parseVal fuel (stringifyL v ++ rest) = some (v, rest) := by
  match fuel with
  | 0 => exact absurd hsz (by have := sizeJ_pos v; omega)
  | fuel + 1 =>
    cases v with
    | null =>
      rw [show stringifyL JsonValue.null ++ rest = 'n' :: 'u' :: 'l' :: 'l' :: rest from rfl]
      exact parseVal_null fuel rest
    | bool b =>
      cases b
      · rw [show stringifyL (JsonValue.bool false) ++ rest =
          'f' :: 'a' :: 'l' :: 's' :: 'e' :: rest from rfl]
        exact parseVal_false fuel rest
      · rw [show stringifyL (JsonValue.bool true) ++ rest =
          't' :: 'r' :: 'u' :: 'e' :: rest from rfl]
        exact parseVal_true fuel rest
    | num i =>
      cases i with
      | ofNat n =>
        obtain ⟨c, t, hct⟩ := List.exists_cons_of_ne_nil (natDigits_ne_nil n)
        have hd := natDigits_mem_digit (show c ∈ natDigits n by
          rw [hct]; exact List.mem_cons_self _ _)
        have hdig : isDigitCh c = true := by
          simp only [isDigitCh, Bool.and_eq_true, decide_eq_true_eq]
          omega
        have hinput : stringifyL (JsonValue.num (Int.ofNat n)) ++ rest =
            c :: (t ++ rest) := by
          simp only [stringifyL, intDigits]
          rw [hct, List.cons_append]
        rw [hinput, parseVal_digit fuel c _ hdig,
          show c :: (t ++ rest) = natDigits n ++ rest from by rw [hct, List.cons_append],
          parseNatNum_natDigits n hrest]
        rfl
      | negSucc n =>
        have hinput : stringifyL (JsonValue.num (Int.negSucc n)) ++ rest =
            '-' :: (natDigits (n + 1) ++ rest) := by
          simp only [stringifyL, intDigits]
          rw [List.cons_append]
        rw [hinput, parseVal_neg, parseNatNum_natDigits (n + 1) hrest]
        show some (JsonValue.num (-(Int.ofNat (n + 1))), rest) = _
        have : -(Int.ofNat (n + 1)) = Int.negSucc n := by
          rw [Int.negSucc_eq]
          simp [Int.ofNat_succ]
        rw [this]
    | str s =>
      have hinput : stringifyL (JsonValue.str s) ++ rest =
          '"' :: (escJson s.toList ++ '"' :: rest) := by
        simp only [stringifyL]
        simp
      rw [hinput, parseVal_quote, parseStr_escJson]
      show some (JsonValue.str (String.mk s.toList), rest) = _
      rfl
    | arr items =>
      cases items with
      | nil =>
        have hinput : stringifyL (JsonValue.arr []) ++ rest = '[' :: ']' :: rest := by
          simp only [stringifyL]
          rfl
        rw [hinput]
        exact parseVal_arr_nil fuel rest _ (skipWs_cons (by decide) rest)
      | cons x xs =>
        obtain ⟨c, t, hct, hw, hne1, hne2⟩ := stringifyL_head x
        have hinput : stringifyL (JsonValue.arr (x :: xs)) ++ rest =
            '[' :: (c :: (t ++ (stringifyMoreItems xs ++ ']' :: rest))) := by
          simp only [stringifyL]
          rw [hct]
          simp
        have hback : c :: (t ++ (stringifyMoreItems xs ++ ']' :: rest)) =
            stringifyL x ++ (stringifyMoreItems xs ++ ']' :: rest) := by
          rw [hct, List.cons_append]
        have hsz' : sizeItems (x :: xs) ≤ fuel := by
          simp only [sizeJ] at hsz
          omega
        rw [hinput, parseVal_arr_cons fuel c _ _ (skipWs_cons hw _) hne1, hback,
          parseItems_stringify fuel x xs rest hsz']
        rfl
    | obj fields =>
      cases fields with
      | nil =>
        have hinput : stringifyL (JsonValue.obj []) ++ rest = '{' :: '}' :: rest := by
          simp only [stringifyL]
          rfl
        rw [hinput]
        exact parseVal_obj_nil fuel rest _ (skipWs_cons (by decide) rest)
      | cons f fs =>
        obtain ⟨k, v⟩ := f
        have hbt : stringifyField (k, v) ++ (stringifyMoreFields fs ++ '}' :: rest) =
            '"' :: (escJson k.toList ++ '"' :: (':' ::
              (stringifyL v ++ (stringifyMoreFields fs ++ '}' :: rest)))) := by
          simp only [stringifyField]
          simp
        have hinput : stringifyL (JsonValue.obj ((k, v) :: fs)) ++ rest =
            '{' :: ('"' :: (escJson k.toList ++ '"' :: (':' ::
              (stringifyL v ++ (stringifyMoreFields fs ++ '}' :: rest))))) := by
          simp only [stringifyL]
          rw [← hbt]
          simp
        have hsz' : sizeFields ((k, v) :: fs) ≤ fuel := by
          simp only [sizeJ] at hsz
          omega
        rw [hinput, parseVal_obj_cons fuel '"' _ _ (skipWs_cons (by decide) _) (by decide),
          ← hbt, parseFieldsP_stringify fuel (k, v) fs rest hsz']
        rfl

theorem parseItems_stringify (fuel : Nat) (x : JsonValue) (xs : List JsonValue)
    (rest : List Char) (hsz : sizeItems (x :: xs) ≤ fuel) :
    parseItems fuel (stringifyL x ++ (stringifyMoreItems xs ++ ']' :: rest)) =
      some (x :: xs, rest) := by
  match fuel with
  | 0 =>
    exact absurd hsz (by
      simp only [sizeItems]
      have := sizeJ_pos x
      omega)
  | fuel + 1 =>
    have hszx : sizeJ x ≤ fuel := by
      simp only [sizeItems] at hsz
      omega
    cases xs with
    | nil =>
      have hv : parseVal fuel (stringifyL x ++ (stringifyMoreItems [] ++ ']' :: rest)) =
          some (x, ']' :: rest) := by
        rw [show stringifyMoreItems [] ++ ']' :: rest = ']' :: rest from by
          simp [stringifyMoreItems]]
        exact parseVal_stringify fuel x _ hszx
          (Or.inr ⟨']', rest, rfl, Or.inr (Or.inl rfl)⟩)
      exact parseItems_unfold_end fuel _ rest x hv
    | cons y ys =>
      have hmi : stringifyMoreItems (y :: ys) ++ ']' :: rest =
          ',' :: (stringifyL y ++ (stringifyMoreItems ys ++ ']' :: rest)) := by
        simp only [stringifyMoreItems]
        simp
      have hv : parseVal fuel
          (stringifyL x ++ (stringifyMoreItems (y :: ys) ++ ']' :: rest)) =
          some (x, ',' :: (stringifyL y ++ (stringifyMoreItems ys ++ ']' :: rest))) := by
        rw [hmi]
        exact parseVal_stringify fuel x _ hszx (Or.inr ⟨',', _, rfl, Or.inl rfl⟩)
      rw [parseItems_unfold_comma fuel _ _ x hv, skipWs_stringify,
        parseItems_stringify fuel y ys rest (by simp only [sizeItems] at hsz ⊢; omega)]
      rfl

theorem parseFieldsP_stringify (fuel : Nat) (f : String × JsonValue)
    (fs : List (String × JsonValue)) (rest : List Char)
    (hsz : sizeFields (f :: fs) ≤ fuel) :
    parseFieldsP fuel (stringifyField f ++ (stringifyMoreFields fs ++ '}' :: rest)) =
      some (f :: fs, rest) := by
  match fuel with
  | 0 =>
    exact absurd hsz (by
      simp only [sizeFields]
      have := sizeJ_pos f.2
      omega)
  | fuel + 1 =>
    obtain ⟨k, v⟩ := f
    have hszv : sizeJ v ≤ fuel := by
      simp only [sizeFields] at hsz
      omega
    have hfield : stringifyField (k, v) ++ (stringifyMoreFields fs ++ '}' :: rest) =
        '"' :: (escJson k.toList ++ '"' :: (':' ::
          (stringifyL v ++ (stringifyMoreFields fs ++ '}' :: rest)))) := by
      simp only [stringifyField]
      simp
    cases fs with
    | nil =>
      have hmf : stringifyMoreFields [] ++ '}' :: rest = '}' :: rest := by
        simp [stringifyMoreFields]
      rw [hfield, hmf]
      refine parseFieldsP_unfold_end fuel _ rest k v ?_ ?_
      · have hps := parseStr_escJson k.toList (':' :: (stringifyL v ++ '}' :: rest))
        rw [show String.mk k.toList = k from rfl] at hps
        exact hps
      · exact parseVal_stringify fuel v _ hszv
          (Or.inr ⟨'}', rest, rfl, Or.inr (Or.inr rfl)⟩)
    | cons g gs =>
      have hmf : stringifyMoreFields (g :: gs) ++ '}' :: rest =
          ',' :: (stringifyField g ++ (stringifyMoreFields gs ++ '}' :: rest)) := by
        simp only [stringifyMoreFields]
        simp
      rw [hfield, hmf]
      have hps := parseStr_escJson k.toList
        (':' :: (stringifyL v ++
          ',' :: (stringifyField g ++ (stringifyMoreFields gs ++ '}' :: rest))))
      rw [show String.mk k.toList = k from rfl] at hps
      have hpv := parseVal_stringify fuel v
        (',' :: (stringifyField g ++ (stringifyMoreFields gs ++ '}' :: rest))) hszv
        (Or.inr ⟨',', _, rfl, Or.inl rfl⟩)
      rw [parseFieldsP_unfold_comma fuel _ _ k v hps hpv]
      obtain ⟨gk, gv⟩ := g
      have hgb : stringifyField (gk, gv) ++ (stringifyMoreFields gs ++ '}' :: rest) =
          '"' :: (escJson gk.toList ++ '"' :: (':' ::
            (stringifyL gv ++ (stringifyMoreFields gs ++ '}' :: rest)))) := by
        simp only [stringifyField]
        simp
      rw [show skipWs (stringifyField (gk, gv) ++ (stringifyMoreFields gs ++ '}' :: rest)) =
          stringifyField (gk, gv) ++ (stringifyMoreFields gs ++ '}' :: rest) from by
        rw [hgb]
        exact skipWs_cons (by decide) _]
      rw [parseFieldsP_stringify fuel (gk, gv) gs rest
        (by simp only [sizeFields] at hsz ⊢; omega)]
      rfl

end

mutual

theorem sizeJ_le (v : JsonValue) : sizeJ v ≤ (stringifyL v).length := by
  cases v with
  | null => simp [sizeJ, stringifyL]
  | bool b => cases b <;> simp [sizeJ, stringifyL]
  | num i =>
    cases i with
    | ofNat n =>
      simp only [sizeJ, stringifyL, intDigits]
      exact List.length_pos.mpr (natDigits_ne_nil n)
    | negSucc n =>
      simp [sizeJ, stringifyL, intDigits]
  | str s => simp [sizeJ, stringifyL]
  | arr items =>
    cases items with
    | nil => simp [sizeJ, sizeItems, stringifyL]
    | cons x xs =>
      have h1 := sizeJ_le x
      have h2 := sizeItems_le xs
      simp only [sizeJ, sizeItems, stringifyL, List.length_cons, List.length_append]
      omega
  | obj fields =>
    cases fields with
    | nil => simp [sizeJ, sizeFields, stringifyL]
    | cons f fs =>
      obtain ⟨k, w⟩ := f
      have h1 := sizeJ_le w
      have h2 := sizeFields_le fs
      simp only [sizeJ, sizeFields, stringifyL, stringifyField, List.length_cons,
        List.length_append]
      omega

theorem sizeItems_le (xs : List JsonValue) :
    sizeItems xs ≤ (stringifyMoreItems xs).length := by
  cases xs with
  | nil => simp [sizeItems, stringifyMoreItems]
  | cons y ys =>
    have h1 := sizeJ_le y
    have h2 := sizeItems_le ys
    simp only [sizeItems, stringifyMoreItems, List.length_cons, List.length_append]
    omega

theorem sizeFields_le (fs : List (String × JsonValue)) :
    sizeFields fs ≤ (stringifyMoreFields fs).length := by
  cases fs with
  | nil => simp [sizeFields, stringifyMoreFields]
  | cons g gs =>
    obtain ⟨k, w⟩ := g
    have h1 := sizeJ_le w
    have h2 := sizeFields_le gs
    simp only [sizeFields, stringifyMoreFields, stringifyField, List.length_cons,
      List.length_append]
    omega

end

theorem parseJsonText_stringify (v : JsonValue) :
    parseJsonText (jsonStringifyCompact v) = some v := by
  have hskip : List.dropWhile isWsChar (jsonStringifyCompact v).data = stringifyL v := by
    show skipWs (stringifyL v) = stringifyL v
    simpa using skipWs_stringify v []
  have hpv : parseVal ((stringifyL v).length + 1) (stringifyL v) = some (v, []) := by
    have h := parseVal_stringify ((stringifyL v).length + 1) v []
      (le_trans (sizeJ_le v) (by omega)) (Or.inl rfl)
    simpa using h
  simp [parseJsonText, skipWs, hskip, hpv]

/-- The hash-load decode path of the source: URL-safe-base64 decode to
UTF-8 text, then `JSON.parse`. -/
def shareDecode (encoded : String) : Option JsonValue :=
  (decodeBase64Utf8 encoded).bind parseJsonText

/-- C6: share-encoding any parsed JSON value (compact `JSON.stringify`
text, UTF-8 encoded, URL-safe base64 with `+`/`/` replaced by `-`/`_` and
padding stripped) and then running the decode path (base64 normalization
with padding restored, UTF-8 decode, `JSON.parse`) reproduces a value
deep-equal to the original, for every document including nested objects,
arrays, unicode strings, and numbers. -/
theorem C6_share_roundtrip (v : JsonValue) :
    shareDecode (encodeBase64Utf8 (jsonStringifyCompact v)) = some v := by
  unfold shareDecode
  rw [decodeBase64Utf8_encodeBase64Utf8, Option.some_bind, parseJsonText_stringify]

/-! ### The load boundary: `safeDecodeURIComponent` and `loadFromJsonText` -/

/-- One `%HH` escape: the byte value and the remaining characters. -/
def pctByte : List Char → Option (Nat × List Char)
  | '%' :: h1 :: h2 :: rest =>
    match hexVal h1, hexVal h2 with
    | some v1, some v2 => some (v1 * 16 + v2, rest)
    | _, _ => none
  | _ => none

/-- `n` further continuation escapes. -/
def pctCont : Nat → List Char → Option (List Nat × List Char)
  | 0, rest => some ([], rest)
  | n + 1, cs =>
    (pctByte cs).bind fun br =>
      (pctCont n br.2).map (fun p => (br.1 :: p.1, p.2))

/-- Number of continuation bytes demanded by a UTF-8 leading byte (the
leading-ones count of the `decodeURIComponent` algorithm; `none` for an
invalid leading byte). -/
def contCount (b : Nat) : Option Nat :=
  if 192 ≤ b ∧ b < 224 then some 1
  else if 224 ≤ b ∧ b < 240 then some 2
  else if 240 ≤ b ∧ b < 248 then some 3
  else none

/-- Model of `decodeURIComponent`: literal characters pass through, each
`%HH` escape yields a byte, a multi-byte leading byte must be followed by
exactly the right number of `%HH` continuation escapes forming a valid
UTF-8 sequence; any violation throws (`none`). -/
def pctDecodeAux : Nat → List Char → Option (List Char)
  | 0, _ => none
  | _ + 1, [] => some []
  | fuel + 1, c :: rest =>
    if c = '%' then
      (pctByte (c :: rest)).bind fun br =>
        if br.1 < 128 then
          (pctDecodeAux fuel br.2).map (fun ds => Char.ofNat br.1 :: ds)
        else
          (contCount br.1).bind fun n =>
            (pctCont n br.2).bind fun p =>
              match utf8DecodeOne (br.1 :: p.1) with
              | some (cp, []) => (pctDecodeAux fuel p.2).map (fun ds => Char.ofNat cp :: ds)
              | _ => none
    else
      (pctDecodeAux fuel rest).map (fun ds => c :: ds)

/-- `decodeURIComponent` on a string (`none` models a thrown `URIError`). -/
def decodeURIComponentModel (s : String) : Option String :=
  (pctDecodeAux (s.toList.length + 1) s.toList).map String.mk

/-- Model of `safeDecodeURIComponent`: the decoded form, or the input
itself when decoding throws. -/
def safeDecodeURIComponent (s : String) : String :=
  (decodeURIComponentModel s).getD s

/-- Model of `stringifyParsedValueForInput`. -/
def stringifyParsedValueForInput : JsonValue → String
  | JsonValue.str s => s
  | JsonValue.null => "null"
  | v => jsonStringifyIndent2 v

/-- The slice of the App component state touched by `loadFromJsonText`. -/
structure AppState where
  treeData : TreeData
  collapsedIds : List String
  selectedId : Option String
  searchInput : String
  errorMessage : Option String
  parsedJsonValue : Option JsonValue
  pasteText : String
  rawCollapsed : Bool

/-- The parse candidates of `loadFromJsonText`: the (safely
percent-decoded) raw text, plus its base64-decoded form when that decoding
succeeds, is non-empty (JavaScript truthiness), and is not already a
candidate. -/
def parseTargetsOf (rawText : String) : List String :=
  let candidateRaw := safeDecodeURIComponent rawText
  match decodeBase64Utf8 candidateRaw with
  | some d => if d ≠ "" ∧ d ∉ [candidateRaw] then [candidateRaw, d] else [candidateRaw]
  | none => [candidateRaw]

/-- The candidate loop of `loadFromJsonText`: first parse success wins,
otherwise the last failure (or the initial message for an empty list) is
kept. -/
def tryTargets : List String → Except String JsonValue → Except String JsonValue
  | [], acc => acc
  | c :: cs, _ =>
    match parseJson c with
    | Except.ok v => Except.ok v
    | Except.error e => tryTargets cs (Except.error e)

/-- Whether `parseJson` succeeds on a text. -/
def parseOk (c : String) : Bool :=
  match parseJson c with
  | Except.ok _ => true
  | Except.error _ => false

/-- The initial `parsed` message of `loadFromJsonText`. -/
def initialLoadError : String := "입력 문자열이 JSON 형태가 아닙니다."

/-- Model of `loadFromJsonText`: returns the `boolean` result and the new
component state. -/
def loadFromJsonText (rawText : String) (st : AppState) : Bool × AppState :=
  match tryTargets (parseTargetsOf rawText) (Except.error initialLoadError) with
  | Except.error e =>
    (false, { st with errorMessage := some e, parsedJsonValue := none,
                      rawCollapsed := false, searchInput := "" })
  | Except.ok v =>
    let tree := buildTree v
    (true, { st with pasteText := stringifyParsedValueForInput v,
                     treeData := tree,
                     collapsedIds := makeDefaultCollapsed tree.nodes,
                     parsedJsonValue := some v,
                     rawCollapsed := false,
                     selectedId := tree.rootIds.head?,
                     errorMessage := none,
                     searchInput := "" })

theorem tryTargets_all_fail :
    ∀ (cs : List String) (e0 : String),
      (∀ c ∈ cs, parseOk c = false) →
      ∃ e, tryTargets cs (Except.error e0) = Except.error e := by
  intro cs
  induction cs with
  | nil => exact fun e0 _ => ⟨e0, rfl⟩
  | cons c cs ih =>
    intro e0 h
    have hc := h c (List.mem_cons_self _ _)
    unfold parseOk at hc
    show ∃ e, (match parseJson c with
      | Except.ok v => Except.ok v
      | Except.error e => tryTargets cs (Except.error e)) = Except.error e
    cases hp : parseJson c with
    | ok v => rw [hp] at hc; simp at hc
    | error e => exact ih e (fun x hx => h x (List.mem_cons_of_mem _ hx))

/-- C7: when every parse candidate (the percent-decoded raw text and, when
present, its base64-decoded form) fails to parse, `loadFromJsonText`
returns `false` with an error message recorded, clears the parsed value,
the raw-view collapse flag, and the search input, and leaves the tree, the
collapse state, the selection, and the paste text at their prior values —
no tree is rebuilt, and no failure escapes the load boundary. -/
theorem C7_load_failure (rawText : String) (st : AppState)
    (hfail : ∀ c ∈ parseTargetsOf rawText, parseOk c = false) :
    (loadFromJsonText rawText st).1 = false ∧
    (loadFromJsonText rawText st).2.treeData = st.treeData ∧
    (loadFromJsonText rawText st).2.collapsedIds = st.collapsedIds ∧
    (loadFromJsonText rawText st).2.selectedId = st.selectedId ∧
    (loadFromJsonText rawText st).2.pasteText = st.pasteText ∧
    (∃ msg, (loadFromJsonText rawText st).2.errorMessage = some msg) ∧
    (loadFromJsonText rawText st).2.parsedJsonValue = none ∧
    (loadFromJsonText rawText st).2.rawCollapsed = false ∧
    (loadFromJsonText rawText st).2.searchInput = "" := by
  obtain ⟨e, he⟩ := tryTargets_all_fail (parseTargetsOf rawText) initialLoadError hfail
  unfold loadFromJsonText
  rw [he]
  exact ⟨rfl, rfl, rfl, rfl, rfl, ⟨e, rfl⟩, rfl, rfl, rfl⟩

/-- A concrete pre-load state for exercising the load boundary. -/
def c7state : AppState :=
  { treeData := buildTree sampleJson
    collapsedIds := ["node-1"]
    selectedId := some "node-0"
    searchInput := "hit"
    errorMessage := none
    parsedJsonValue := some sampleJson
    pasteText := "sample"
    rawCollapsed := true }

theorem C7_load_failure_witness :
    (loadFromJsonText "not json!" c7state).1 = false ∧
    (loadFromJsonText "not json!" c7state).2.treeData = c7state.treeData ∧
    (loadFromJsonText "not json!" c7state).2.collapsedIds = c7state.collapsedIds ∧
    (loadFromJsonText "not json!" c7state).2.selectedId = c7state.selectedId ∧
    (loadFromJsonText "not json!" c7state).2.pasteText = c7state.pasteText ∧
    (∃ msg, (loadFromJsonText "not json!" c7state).2.errorMessage = some msg) ∧
    (loadFromJsonText "not json!" c7state).2.parsedJsonValue = none ∧
    (loadFromJsonText "not json!" c7state).2.rawCollapsed = false ∧
    (loadFromJsonText "not json!" c7state).2.searchInput = "" :=
  C7_load_failure "not json!" c7state (by decide)

/-! ### Load/search render timeline: tree, deferred search, and cache -/

/-- JavaScript `String.prototype.trim` whitespace. -/
def isJsWs (c : Char) : Bool :=
  c.toNat = 9 || c.toNat = 10 || c.toNat = 11 || c.toNat = 12 || c.toNat = 13 ||
  c.toNat = 32 || c.toNat = 160 || c.toNat = 5760 ||
  (8192 ≤ c.toNat && c.toNat ≤ 8202) ||
  c.toNat = 8232 || c.toNat = 8233 || c.toNat = 8239 || c.toNat = 8287 ||
  c.toNat = 12288 || c.toNat = 65279

/-- Model of `s.trim()`. -/
def jsTrim (s : String) : String :=
  String.mk (((s.toList.dropWhile isJsWs).reverse.dropWhile isJsWs).reverse)

/-- `normalizedSearch`: the deferred search input trimmed and
lower-cased. -/
def normalizedOf (s : String) : String := jsToLower (jsTrim s)

/-- App-level state for the load/search render timeline: the committed
`treeData` and `searchInput`, the `deferredSearchInput` of the latest
render, the `searchResultCacheRef` contents, and a log with one entry per
`searchMatchIds` memo evaluation recording the node entries it rendered
with, the normalized query, and the match ids it returned. -/
structure C9State where
  tree : TreeData
  searchInput : String
  deferred : String
  cache : List (String × List String)
  log : List (List (String × TreeNode) × String × List String)

/-- One render in which the `searchMatchIds` memo is (re-)evaluated: the
memo reads and updates the cache ref and its result is rendered alongside
the current `treeData`. -/
def renderStep (st : C9State) : C9State :=
  let q := normalizedOf st.deferred
  let r := searchCompute st.tree.nodes st.cache q
  { st with cache := r.2, log := st.log ++ [(st.tree.nodes, q, r.1)] }

/-- A successful document load, following the source's timeline: the state
batch from `loadFromJsonText` commits the new `treeData` and clears
`searchInput`; the urgent re-render still sees the previous
`deferredSearchInput` (and the not-yet-cleared cache ref), because
`useDeferredValue` lags behind on urgent updates; after that render
commits, the `useEffect` keyed on `treeData.nodes` clears the cache ref;
finally the deferred re-render catches `deferredSearchInput` up to the new
`searchInput`. -/
def loadStep (v : JsonValue) (st : C9State) : C9State :=
  let tree := buildTree v
  let st1 := { st with tree := tree, searchInput := "" }
  let st2 := renderStep st1
  let st3 := { st2 with cache := [] }
  renderStep { st3 with deferred := st3.searchInput }

/-- A search-input change: the urgent re-render keeps the old deferred
value and the memo's dependencies are unchanged, so the memo is not
re-evaluated; the deferred re-render then evaluates it with the new
query. -/
def searchStep (q : String) (st : C9State) : C9State :=
  let st1 := { st with searchInput := q }
  renderStep { st1 with deferred := st1.searchInput }

/-- The initial App state. -/
def c9init : C9State :=
  { tree := { nodes := [], rootIds := [] }, searchInput := "", deferred := "",
    cache := [], log := [] }

/-- First document: `{"hit": 1}`. -/
def c9docA : JsonValue := JsonValue.obj [("hit", JsonValue.num 1)]

/-- Second document: `{"x": {"y": 2}}`. -/
def c9docB : JsonValue := JsonValue.obj [("x", JsonValue.obj [("y", JsonValue.num 2)])]

/-- The trace: load the first document, search for "hit", then load the
second document. -/
def c9trace : C9State := loadStep c9docB (searchStep "hit" (loadStep c9docA c9init))

/-- C9: the claimed atomicity of tree replacement and cache clearing is
violated.  In the trace load `{"hit":1}`; search `"hit"`; load
`{"x":{"y":2}}`, the render immediately after the second load evaluates
the `searchMatchIds` memo with the NEW document's node entries while the
cache ref still holds the result cached for the OLD document (the clearing
`useEffect` only runs after that render, and `useDeferredValue` still
supplies the old query): the memo returns the stale cached `["node-1"]`
for the new tree, although a scan of the new tree yields no match — and in
the old tree that id belonged to the matching `$.hit` node.  A consumer
thus observes the new Tree paired with cached search results derived from
the old document's tree. -/
theorem C9_stale_cache_bug :
    c9trace.log.get? 3 = some ((buildTree c9docB).nodes, "hit", ["node-1"]) ∧
    searchNaive (buildTree c9docB).nodes "hit" = [] ∧
    searchNaive (buildTree c9docA).nodes "hit" = ["node-1"] :=
  ⟨rfl, by decide, by decide⟩

end Jason
